import Mathlib

/-! Shallow embedding of the kinetophone temporal interval event engine
(src/index.js).  JavaScript numbers are modelled as `Int`; JavaScript
`undefined` on optional fields as `Option`; the event emitter as an explicit
event trace returned next to the new state; the Timex clock as explicit
`clockTime` / `clockRunning` fields updated where the code calls into the
timer.  The interval-tree dependency is external to the repository and is
modelled from the spec's Range Index contract (section 6). -/

/-- A user-supplied timing declaration `{start, end?, duration?, data?}`
as consumed by `_addTimingToTree` (src/index.js lines 65-78).  The opaque
payload is modelled as an optional natural number. -/
structure TimingDecl where
  start : Int
  end_ : Option Int
  duration : Option Int
  data : Option Nat
deriving DecidableEq, Repr

/-- A tree entry `{start, end, data: timing}` allocated by `_addTimingToTree`
(line 77).  The `id` field models JavaScript object identity: every
`tree.add` allocates a fresh wrapper object and the engine compares entries
with `indexOf` (reference equality), so two structurally equal declarations
are still distinct entries; we realise this by numbering entries with their
insertion position. -/
structure NormTiming where
  id : Nat
  start : Int
  end_ : Int
  decl : TimingDecl
deriving DecidableEq, Repr

/-- A channel record `{name, timings, tree}` (lines 42-46).  `timings` is the
declaration list stored at `addChannel` time; `addTiming` inserts into `tree`
only and never extends `timings` (lines 54-63). -/
structure Channel where
  name : String
  timings : List TimingDecl
  tree : List NormTiming
deriving DecidableEq, Repr

/-- The synchronous validation errors thrown by the engine (spec section 7). -/
inductive KError where
  | missingTotalDuration
  | invalidDuration
  | duplicateChannel (name : String)
  | unknownChannel (name : String)
  | conflictingBounds
deriving DecidableEq, Repr

/-- Engine state (constructor, lines 6-28).  `channels` and `activeTimings`
model the two JavaScript objects keyed by channel name; `clockTime`,
`clockRunning` and `rate` model the Timex timer. -/
structure Kinetophone where
  channels : List (String × Channel)
  activeTimings : List (String × List NormTiming)
  totalDuration : Int
  playing : Bool
  clockRunning : Bool
  clockTime : Int
  lastTimerCallback : Option Int
  tickResolution : Int
  rate : Int
deriving DecidableEq, Repr

/-- The public projection of a timing (`timingFromRawData`, lines 262-268):
only the fields originally supplied by the caller are echoed back. -/
structure Projection where
  name : String
  start : Int
  data : Option Nat
  end_ : Option Int
  duration : Option Int
deriving DecidableEq, Repr

/-- Events published on the event bus.  `enterChan c p` is the
`enter:<channel>` variant, `ended` is the `end` event. -/
inductive Event where
  | timeupdate (time : Int)
  | enter (channel : String) (timing : Projection)
  | enterChan (channel : String) (timing : Projection)
  | exit (channel : String) (timing : Projection)
  | exitChan (channel : String) (timing : Projection)
  | seeking (time : Int)
  | seek (time : Int)
  | play
  | pause
  | ended
deriving DecidableEq, Repr

/-! ### Association-list helpers modelling JavaScript objects keyed by name -/

/-- Read `obj[key]`. -/
def lookupA {α : Type} : List (String × α) → String → Option α
  | [], _ => none
  | (k, v) :: rest, key => if k = key then some v else lookupA rest key

/-- Write `obj[key] = v`: replace in place when present, append otherwise. -/
def setA {α : Type} : List (String × α) → String → α → List (String × α)
  | [], key, v => [(key, v)]
  | (k, w) :: rest, key, v =>
      if k = key then (k, v) :: rest else (k, w) :: setA rest key v

/-- `delete obj[key]`. -/
def removeA {α : Type} (l : List (String × α)) (key : String) : List (String × α) :=
  l.filter (fun p => decide (p.1 ≠ key))

theorem lookupA_setA_self {α : Type} (l : List (String × α)) (key : String) (v : α) :
    lookupA (setA l key v) key = some v := by
  induction l with
  | nil => simp [setA, lookupA]
  | cons p rest ih =>
      obtain ⟨k, w⟩ := p
      by_cases h : k = key <;> simp [setA, lookupA, h, ih]

theorem lookupA_setA_ne {α : Type} (l : List (String × α)) (key other : String) (v : α)
    (h : other ≠ key) : lookupA (setA l key v) other = lookupA l other := by
  induction l with
  | nil => simp [setA, lookupA, Ne.symm h]
  | cons p rest ih =>
      obtain ⟨k, w⟩ := p
      by_cases hk : k = key
      · subst hk
        simp [setA, lookupA, Ne.symm h]
      · simp [setA, lookupA, hk, ih]

theorem lookupA_mem {α : Type} (l : List (String × α)) (key : String) (v : α)
    (h : lookupA l key = some v) : (key, v) ∈ l := by
  induction l with
  | nil => simp [lookupA] at h
  | cons p rest ih =>
      obtain ⟨k, w⟩ := p
      by_cases hk : k = key
      · subst hk
        simp [lookupA] at h
        simp [h]
      · simp [lookupA, hk] at h
        exact List.mem_cons_of_mem _ (ih h)

theorem lookupA_eq_none_of_not_mem {α : Type} (l : List (String × α)) (key : String)
    (h : key ∉ l.map Prod.fst) : lookupA l key = none := by
  induction l with
  | nil => rfl
  | cons p rest ih =>
      obtain ⟨k, w⟩ := p
      have hk : k ≠ key := by
        intro hh
        exact h (by simp [hh])
      have hr : key ∉ rest.map Prod.fst := by
        intro hh
        exact h (by simp [hh])
      simp [lookupA, hk, ih hr]

theorem lookupA_append_left {α : Type} (l l' : List (String × α)) (key : String)
    (h : lookupA l key ≠ none) : lookupA (l ++ l') key = lookupA l key := by
  induction l with
  | nil => simp [lookupA] at h
  | cons p rest ih =>
      obtain ⟨k, w⟩ := p
      by_cases hk : k = key <;> simp [lookupA, hk] at h ⊢
      exact ih h

theorem lookupA_append_right {α : Type} (l l' : List (String × α)) (key : String)
    (h : lookupA l key = none) : lookupA (l ++ l') key = lookupA l' key := by
  induction l with
  | nil => simp [lookupA]
  | cons p rest ih =>
      obtain ⟨k, w⟩ := p
      by_cases hk : k = key <;> simp [lookupA, hk] at h ⊢
      exact ih h

/-- The channel's tree, or `[]` when the channel does not exist (the code
would crash on a missing channel on every path that reaches this read, so
the default is never observable along modelled paths). -/
def chanTree (k : Kinetophone) (c : String) : List NormTiming :=
  match lookupA k.channels c with
  | some ch => ch.tree
  | none => []

/-- The channel's currently active timing list (`_activeTimingsPerChannel`). -/
def chanActive (k : Kinetophone) (c : String) : List NormTiming :=
  (lookupA k.activeTimings c).getD []

/-! ### Timing Normalizer (`_addTimingToTree`, lines 65-78) -/

/-- `Kinetophone.prototype._addTimingToTree`: computes the normalized end per
the declaration shape, throws on a declaration carrying both `end` and
`duration`, and appends the fresh entry to the tree. -/
def addTimingToTree (tree : List NormTiming) (timing : TimingDecl) :
    Except KError (List NormTiming) :=
  match timing.end_, timing.duration with
  | none, none =>
      Except.ok (tree ++ [⟨tree.length, timing.start, timing.start + 1, timing⟩])
  | none, some d =>
      Except.ok (tree ++ [⟨tree.length, timing.start, timing.start + d, timing⟩])
  | some e, none =>
      Except.ok (tree ++ [⟨tree.length, timing.start, e, timing⟩])
  | some _, some _ => Except.error KError.conflictingBounds

/-- The Timing Normalizer as worded by the spec (section 4.1), stated
independently of the code for comparison: `end = start+1` if neither `end`
nor `duration` is given; `end = start+duration` if only `duration` is given;
the declared `end` if only `end` is given; ConflictingBounds if both are
given. -/
def specNormalizedEnd (timing : TimingDecl) : Except KError Int :=
  match timing.end_, timing.duration with
  | none, none => Except.ok (timing.start + 1)
  | none, some d => Except.ok (timing.start + d)
  | some e, none => Except.ok e
  | some _, some _ => Except.error KError.conflictingBounds

/-- Insert a list of declarations one by one, stopping at the first failure
and returning the tree as mutated so far (models the `forEach` in
`addChannel`, lines 49-51, where a throw aborts the loop but earlier
`tree.add` mutations remain). -/
def insertTimings (tree : List NormTiming) :
    List TimingDecl → List NormTiming × Option KError
  | [] => (tree, none)
  | t :: ts =>
      match addTimingToTree tree t with
      | Except.ok tree' => insertTimings tree' ts
      | Except.error e => (tree, some e)

/-! ### Channel Store (`addChannel`, `addTiming`, `totalDuration`) -/

/-- Argument to `addChannel`: `{name, timings?}`. -/
structure ChannelDecl where
  name : String
  timings : Option (List TimingDecl)
deriving DecidableEq, Repr

/-- `Kinetophone.prototype.addChannel` (lines 32-52).  The channel record and
its empty active set are stored before the timings are inserted, so a failing
insertion leaves the channel visible holding the successfully inserted
prefix; the second component is the thrown error, if any. -/
def addChannel (k : Kinetophone) (channel : ChannelDecl) :
    Kinetophone × Option KError :=
  if (lookupA k.channels channel.name).isSome then
    (k, some (KError.duplicateChannel channel.name))
  else
    let timings := channel.timings.getD []
    let ins := insertTimings [] timings
    ({ k with
        channels := k.channels ++
          [(channel.name, ⟨channel.name, timings, ins.1⟩)],
        activeTimings := setA k.activeTimings channel.name [] },
     ins.2)

/-- `Kinetophone.prototype.addTiming` (lines 54-63).  Inserts into the
existing channel's tree only; the stored `timings` declaration list is not
extended. -/
def addTiming (k : Kinetophone) (channelName : String) (timing : TimingDecl) :
    Kinetophone × Option KError :=
  match lookupA k.channels channelName with
  | none => (k, some (KError.unknownChannel channelName))
  | some channel =>
      match addTimingToTree channel.tree timing with
      | Except.error e => (k, some e)
      | Except.ok tree' =>
          let channel' : Channel := { channel with tree := tree' }
          ({ k with channels := setA k.channels channelName channel' }, none)

/-- Argument to the `totalDuration` get/set method: JavaScript distinguishes
`undefined` (also produced by calling with no argument), `null`, and a
number. -/
inductive DurationArg where
  | undef
  | null
  | num (n : Int)
deriving DecidableEq, Repr

/-- The rebuild loop inside the `totalDuration` setter (lines 88-96): for
each name in the key snapshot, delete the channel and re-add it from its
stored declaration list; a throw from `addChannel` aborts the loop. -/
def rebuildChannels (k : Kinetophone) : List String → Kinetophone × Option KError
  | [] => (k, none)
  | name :: rest =>
      match lookupA k.channels name with
      | none => rebuildChannels k rest
      | some channel =>
          let k1 := { k with channels := removeA k.channels name }
          let res := addChannel k1 ⟨channel.name, some channel.timings⟩
          match res.2 with
          | some e => (res.1, some e)
          | none => rebuildChannels res.1 rest

/-- `Kinetophone.prototype.totalDuration` (lines 80-98): with `undefined`
(equivalently, no argument) it is a getter; with `null` it throws; with a
number it stores the new duration and rebuilds every channel.  Returns
(getter result, new state, thrown error). -/
def totalDurationOp (k : Kinetophone) (duration : DurationArg) :
    Option Int × Kinetophone × Option KError :=
  match duration with
  | DurationArg.undef => (some k.totalDuration, k, none)
  | DurationArg.null => (none, k, some KError.invalidDuration)
  | DurationArg.num d =>
      let k1 := { k with totalDuration := d }
      let res := rebuildChannels k1 (k1.channels.map Prod.fst)
      (none, res.1, res.2)

/-- Claim C7: the timing normalizer maps a declaration `{start, end?,
duration?}` to a normalized end via: `start+1` if neither `end` nor
`duration` is given; `start+duration` if only `duration` is given; the
declared `end` if only `end` is given; and it fails with ConflictingBounds,
inserting nothing, if both are given.  Stated as a refinement: the code's
`_addTimingToTree` agrees with the spec-worded normalizer on every input. -/
theorem addTimingToTree_matches_spec_normalizer
    (tree : List NormTiming) (timing : TimingDecl) :
    addTimingToTree tree timing =
      (specNormalizedEnd timing).map
        (fun e => tree ++ [⟨tree.length, timing.start, e, timing⟩]) := by
  cases h1 : timing.end_ <;> cases h2 : timing.duration <;>
    simp [addTimingToTree, specNormalizedEnd, h1, h2, Except.map]

/-- Claim C8 (amended): only `null` makes the `totalDuration` method fail
with InvalidDuration leaving the state unchanged; a call with `undefined`
(indistinguishable in JavaScript from a call with no argument) acts as a
getter, returning the current total duration without error and without
mutating anything. -/
theorem totalDuration_null_fails_undefined_gets (k : Kinetophone) :
    totalDurationOp k DurationArg.null = (none, k, some KError.invalidDuration) ∧
    totalDurationOp k DurationArg.undef = (some k.totalDuration, k, none) :=
  ⟨rfl, rfl⟩

/-! ### Range Index queries (external interval-tree dependency) -/

/-- Modelled from the spec: the Range Index contract of section 6 —
`query(point)` returns the stored entries overlapping the point.  The
interval-tree library is an external collaborator, not part of this
repository's source; results are returned in storage order. -/
def treeSearchPoint (tree : List NormTiming) (p : Int) : List NormTiming :=
  tree.filter (fun t => decide (t.start ≤ p) && decide (p ≤ t.end_))

/-- Modelled from the spec: the Range Index contract of section 6 —
`query(rangeStart, rangeEnd)` returns the stored entries overlapping the
closed range. -/
def treeSearchRange (tree : List NormTiming) (lo hi : Int) : List NormTiming :=
  tree.filter (fun t => decide (t.start ≤ hi) && decide (lo ≤ t.end_))

/-! ### Event payload projections -/

/-- `timingFromRawData` (lines 262-268): the public projection built from the
entry's stored declaration. -/
def timingFromRawData (channel : String) (timing : NormTiming) : Projection :=
  { name := channel, start := timing.decl.start, data := timing.decl.data,
    end_ := timing.decl.end_, duration := timing.decl.duration }

/-- The exit payload built inline in `_resolveTimingsForChannel` (lines
191-194); it reads `start` from the entry itself rather than from the
declaration (the two always coincide for entries built by
`_addTimingToTree`). -/
def exitProjection (channel : String) (timing : NormTiming) : Projection :=
  { name := channel, start := timing.start, data := timing.decl.data,
    end_ := timing.decl.end_, duration := timing.decl.duration }

/-! ### Active-Set Resolver (`_resolveTimingsForChannel`, lines 181-215) -/

/-- The exit condition of the exit pass (line 190). -/
def shouldExit (currentTime : Int) (t : NormTiming) : Bool :=
  decide (currentTime < t.start) || decide (currentTime ≥ t.end_)

/-- The exit events emitted by the exit pass, in scan order: for each
departing entry, `exit` then `exit:<channel>`. -/
def exitEventsFor (channel : String) : List NormTiming → List Event
  | [] => []
  | t :: rest =>
      Event.exit channel (exitProjection channel t) ::
      Event.exitChan channel (exitProjection channel t) ::
      exitEventsFor channel rest

/-- The enter pass (lines 206-214): walk the candidates, and for each one
currently containing `currentTime` and not already in the active list, emit
`enter` / `enter:<channel>` and push it.  The active list grows during the
walk, exactly as `timingsRef` does in the source. -/
def enterFold (channel : String) (currentTime : Int) :
    List NormTiming → List NormTiming → List NormTiming × List Event
  | ref, [] => (ref, [])
  | ref, timing :: rest =>
      if currentTime ≥ timing.start ∧ currentTime < timing.end_ ∧ timing ∉ ref then
        let p := timingFromRawData channel timing
        let res := enterFold channel currentTime (ref ++ [timing]) rest
        (res.1, Event.enter channel p :: Event.enterChan channel p :: res.2)
      else
        enterFold channel currentTime ref rest

/-- `Kinetophone.prototype._resolveTimingsForChannel` (lines 181-215):
candidate fetch (point query when `lastTime == currentTime`, closed range
query otherwise), exit pass over the active list, mutation-safe removal,
then the enter pass over the candidates. -/
def resolveTimingsForChannel (k : Kinetophone) (channel : String)
    (lastTime currentTime : Int) : Kinetophone × List Event :=
  let timingsRef := chanActive k channel
  let timingsToAdd :=
    if lastTime = currentTime then treeSearchPoint (chanTree k channel) currentTime
    else treeSearchRange (chanTree k channel) lastTime currentTime
  let exits := exitEventsFor channel (timingsRef.filter (shouldExit currentTime))
  let remaining := timingsRef.filter (fun t => !(shouldExit currentTime t))
  let res := enterFold channel currentTime remaining timingsToAdd
  ({ k with activeTimings := setA k.activeTimings channel res.1 },
   exits ++ res.2)

/-- The body of `_resolveTimings` (lines 169-173): resolve each channel of
the key snapshot in order, concatenating the emitted events. -/
def resolveList (k : Kinetophone) (names : List String)
    (lastTime currentTime : Int) : Kinetophone × List Event :=
  match names with
  | [] => (k, [])
  | c :: rest =>
      let r1 := resolveTimingsForChannel k c lastTime currentTime
      let r2 := resolveList r1.1 rest lastTime currentTime
      (r2.1, r1.2 ++ r2.2)

/-- `Kinetophone.prototype._resolveTimings`. -/
def resolveTimings (k : Kinetophone) (lastTime currentTime : Int) :
    Kinetophone × List Event :=
  resolveList k (k.channels.map Prod.fst) lastTime currentTime

/-- The exit events emitted by `_clearAllTimingsForChannel` (lines 217-225),
which builds its payloads with `timingFromRawData`. -/
def clearEventsFor (channel : String) : List NormTiming → List Event
  | [] => []
  | t :: rest =>
      Event.exit channel (timingFromRawData channel t) ::
      Event.exitChan channel (timingFromRawData channel t) ::
      clearEventsFor channel rest

/-- `Kinetophone.prototype._clearAllTimingsForChannel` (lines 217-225). -/
def clearAllTimingsForChannel (k : Kinetophone) (channel : String) :
    Kinetophone × List Event :=
  let evts := clearEventsFor channel (chanActive k channel)
  ({ k with activeTimings := setA k.activeTimings channel [] }, evts)

/-- The body of `_clearAllTimings` (lines 175-179). -/
def clearList (k : Kinetophone) : List String → Kinetophone × List Event
  | [] => (k, [])
  | c :: rest =>
      let r1 := clearAllTimingsForChannel k c
      let r2 := clearList r1.1 rest
      (r2.1, r1.2 ++ r2.2)

/-- `Kinetophone.prototype._clearAllTimings`. -/
def clearAllTimings (k : Kinetophone) : Kinetophone × List Event :=
  clearList k (k.channels.map Prod.fst)

/-! ### Playback Controller -/

/-- `Kinetophone.prototype.pause` (lines 120-126): no-op when not playing,
otherwise clear the flag, emit `pause`, pause the timer. -/
def pause (k : Kinetophone) : Kinetophone × List Event :=
  if k.playing then
    ({ k with playing := false, clockRunning := false }, [Event.pause])
  else (k, [])

/-- `Kinetophone.prototype.play` (lines 128-140): no-op when already playing;
when the clock sits at or past the total duration, first reset the clock,
unset the tick checkpoint and clear all active sets; then mark playing, emit
`play` and start the timer. -/
def play (k : Kinetophone) : Kinetophone × List Event :=
  if k.playing then (k, [])
  else
    let r :=
      if k.clockTime ≥ k.totalDuration then
        clearAllTimings { k with clockTime := 0, lastTimerCallback := none }
      else (k, [])
    ({ r.1 with playing := true, clockRunning := true }, r.2 ++ [Event.play])

/-! ### Tick Controller (`_timerCallback`, lines 100-118) -/

/-- The resolution half of `_timerCallback` (lines 100-109): on the very
first observation emit `timeupdate` and resolve `(0, t)`; afterwards, only
when at least `tickResolution` time has elapsed since the checkpoint, emit
`timeupdate` and resolve `(last+1, t)`; otherwise do nothing. -/
def tickResolvePhase (k : Kinetophone) (time : Int) : Kinetophone × List Event :=
  match k.lastTimerCallback with
  | none =>
      let k1 := { k with lastTimerCallback := some time }
      let r := resolveTimings k1 0 time
      (r.1, Event.timeupdate time :: r.2)
  | some last =>
      if time - last ≥ k.tickResolution then
        let r := resolveTimings k (last + 1) time
        ({ r.1 with lastTimerCallback := some time }, Event.timeupdate time :: r.2)
      else (k, [])

/-- The rollover half of `_timerCallback` (lines 111-117): when the elapsed
time exceeds the total duration, pause, reset the clock to 0, unset the
checkpoint, clear every channel's active set (emitting exits) and emit
`end`. -/
def rolloverPhase (k : Kinetophone) (time : Int) : Kinetophone × List Event :=
  if time > k.totalDuration then
    let r1 := pause k
    let k2 := { r1.1 with clockTime := 0, lastTimerCallback := none }
    let r2 := clearAllTimings k2
    (r2.1, r1.2 ++ r2.2 ++ [Event.ended])
  else (k, [])

/-- `Kinetophone.prototype._timerCallback`: the timer has advanced the clock
to `time` when the callback fires; then the resolution phase runs, followed
by the rollover check. -/
def timerCallback (k0 : Kinetophone) (time : Int) : Kinetophone × List Event :=
  let k := { k0 with clockTime := time }
  let r1 := tickResolvePhase k time
  let r2 := rolloverPhase r1.1 time
  (r2.1, r1.2 ++ r2.2)

/-- Argument to the `currentTime` get/seek method. -/
inductive TimeArg where
  | undef
  | num (t : Int)
deriving DecidableEq, Repr

/-- The two sequential clamps of the seek path (lines 151-152), applied in
source order after the checkpoint assignment. -/
def clampSeek (k : Kinetophone) (t : Int) : Int :=
  if (if t < 0 then 0 else t) > k.totalDuration then k.totalDuration
  else (if t < 0 then 0 else t)

/-- `Kinetophone.prototype.currentTime` (lines 146-159): getter with
`undefined`; otherwise a seek: assign the checkpoint from the raw argument,
clamp, emit `seeking`, reposition the clock, emit `timeupdate`, run a point
resolution at the clamped time, emit `seek`.  Returns (getter result, new
state, events). -/
def currentTimeOp (k : Kinetophone) (newTime : TimeArg) :
    Option Int × Kinetophone × List Event :=
  match newTime with
  | TimeArg.undef => (some k.clockTime, k, [])
  | TimeArg.num t0 =>
      let k1 := { k with lastTimerCallback := some t0 }
      let t := clampSeek k1 t0
      let k2 := { k1 with clockTime := t }
      let r := resolveTimings k2 t t
      (none, r.1,
       Event.seeking t :: Event.timeupdate t :: (r.2 ++ [Event.seek t]))

/-- `Kinetophone.prototype.playbackRate` (lines 161-167). -/
def playbackRate (k : Kinetophone) (rate : Option Int) : Option Int × Kinetophone :=
  match rate with
  | none => (some k.rate, k)
  | some r => (some r, { k with rate := r })

/-! ### Query Façade -/

/-- `getTimingsAt` restricted to a single channel (lines 227-234 with
lines 245-260): point query, keep entries with `start <= time < end`, map to
the public projection. -/
def getTimingsAtChannel (k : Kinetophone) (time : Int) (c : String) :
    List Projection :=
  ((treeSearchPoint (chanTree k c) time).filter
      (fun t => decide (time ≥ t.start) && decide (time < t.end_))).map
    (timingFromRawData c)

/-- `Kinetophone.prototype.getTimingsAt` over a channel list (defaulting to
all channels), returning the name-keyed result object. -/
def getTimingsAt (k : Kinetophone) (time : Int) (channels : Option (List String)) :
    List (String × List Projection) :=
  (channels.getD (k.channels.map Prod.fst)).map
    (fun c => (c, getTimingsAtChannel k time c))

/-! ### Construction and operation sequences -/

/-- The channel loop of the constructor (line 19): add every channel,
aborting on a throw. -/
def addChannels (k : Kinetophone) : List ChannelDecl → Kinetophone × Option KError
  | [] => (k, none)
  | c :: cs =>
      let r := addChannel k c
      match r.2 with
      | some e => (r.1, some e)
      | none => addChannels r.1 cs

/-- The constructor (lines 6-28) for a non-null total duration:
`timeUpdateResolution || 33` maps a missing or zero option to the default
resolution of 33. -/
def mkKinetophone (channels : List ChannelDecl) (totalDuration : Int)
    (timeUpdateResolution : Option Int) : Kinetophone × Option KError :=
  let res := match timeUpdateResolution with
    | some r => if r = 0 then 33 else r
    | none => 33
  addChannels
    { channels := [], activeTimings := [], totalDuration := totalDuration,
      playing := false, clockRunning := false, clockTime := 0,
      lastTimerCallback := none, tickResolution := res, rate := 1 }
    channels

/-- A sequence of timer callbacks delivered unconditionally. -/
def run (k : Kinetophone) : List Int → Kinetophone × List Event
  | [] => (k, [])
  | t :: ts =>
      let r1 := timerCallback k t
      let r2 := run r1.1 ts
      (r2.1, r1.2 ++ r2.2)

/-- A sequence of timer callbacks delivered under the Clock contract of
section 6: the callback fires only while the timer is running. -/
def runClock (k : Kinetophone) : List Int → Kinetophone × List Event
  | [] => (k, [])
  | t :: ts =>
      if k.clockRunning then
        let r1 := timerCallback k t
        let r2 := runClock r1.1 ts
        (r2.1, r1.2 ++ r2.2)
      else runClock k ts

/-- One public operation, for invariant statements quantifying over the whole
surface. -/
inductive Op where
  | tick (t : Int)
  | opPlay
  | opPause
  | opCurrentTime (t : TimeArg)
  | opAddChannel (c : ChannelDecl)
  | opAddTiming (name : String) (t : TimingDecl)
  | opTotalDuration (d : DurationArg)
  | opPlaybackRate (r : Option Int)
  | opGetTimingsAt (t : Int) (channels : Option (List String))
deriving Repr

/-- The state transition of one public operation (results and events
discarded). -/
def step (k : Kinetophone) : Op → Kinetophone
  | Op.tick t => (timerCallback k t).1
  | Op.opPlay => (play k).1
  | Op.opPause => (pause k).1
  | Op.opCurrentTime t => (currentTimeOp k t).2.1
  | Op.opAddChannel c => (addChannel k c).1
  | Op.opAddTiming n t => (addTiming k n t).1
  | Op.opTotalDuration d => (totalDurationOp k d).2.1
  | Op.opPlaybackRate r => (playbackRate k r).2
  | Op.opGetTimingsAt _ _ => k

/-- Occurrence count of one event in a trace. -/
def countE (e : Event) : List Event → Nat
  | [] => 0
  | x :: rest => (if x = e then 1 else 0) + countE e rest

theorem countE_append (e : Event) (l l' : List Event) :
    countE e (l ++ l') = countE e l + countE e l' := by
  induction l with
  | nil => simp [countE]
  | cons x rest ih => simp [countE, ih]; omega

/-! ### Decomposition of the enter pass -/

/-- The sublist of candidates the enter pass actually pushes, tracking the
growing active list. -/
def addedOf (t : Int) : List NormTiming → List NormTiming → List NormTiming
  | _, [] => []
  | ref, y :: rest =>
      if t ≥ y.start ∧ t < y.end_ ∧ y ∉ ref then y :: addedOf t (ref ++ [y]) rest
      else addedOf t ref rest

/-- The enter events of a pushed sublist, one `enter` / `enter:<channel>`
pair per entry. -/
def enterEventsFor (channel : String) : List NormTiming → List Event
  | [] => []
  | y :: rest =>
      Event.enter channel (timingFromRawData channel y) ::
      Event.enterChan channel (timingFromRawData channel y) ::
      enterEventsFor channel rest

theorem enterFold_fst (channel : String) (t : Int) (cands : List NormTiming) :
    ∀ ref, (enterFold channel t ref cands).1 = ref ++ addedOf t ref cands := by
  induction cands with
  | nil => intro ref; simp [enterFold, addedOf]
  | cons y rest ih =>
      intro ref
      by_cases h : t ≥ y.start ∧ t < y.end_ ∧ y ∉ ref
      · simp [enterFold, addedOf, h, ih]
      · simp [enterFold, addedOf, h, ih]

theorem enterFold_snd (channel : String) (t : Int) (cands : List NormTiming) :
    ∀ ref, (enterFold channel t ref cands).2 =
      enterEventsFor channel (addedOf t ref cands) := by
  induction cands with
  | nil => intro ref; simp [enterFold, addedOf, enterEventsFor]
  | cons y rest ih =>
      intro ref
      by_cases h : t ≥ y.start ∧ t < y.end_ ∧ y ∉ ref
      · simp [enterFold, addedOf, h, ih, enterEventsFor]
      · simp [enterFold, addedOf, h, ih]

theorem mem_addedOf (x : NormTiming) (t : Int) (cands : List NormTiming) :
    ∀ ref, x ∈ addedOf t ref cands ↔
      (x ∈ cands ∧ (x.start ≤ t ∧ t < x.end_) ∧ x ∉ ref) := by
  induction cands with
  | nil => intro ref; simp [addedOf]
  | cons y rest ih =>
      intro ref
      by_cases h : t ≥ y.start ∧ t < y.end_ ∧ y ∉ ref
      · simp only [addedOf, if_pos h, List.mem_cons, ih]
        constructor
        · rintro (rfl | ⟨hr, hw, hnr⟩)
          · exact ⟨Or.inl rfl, ⟨h.1, h.2.1⟩, h.2.2⟩
          · refine ⟨Or.inr hr, hw, ?_⟩
            intro hx
            exact hnr (List.mem_append_left _ hx)
        · rintro ⟨hm, hw, hnr⟩
          by_cases hxy : x = y
          · exact Or.inl hxy
          · rcases hm with rfl | h1
            · exact absurd rfl hxy
            · refine Or.inr ⟨h1, hw, ?_⟩
              intro hx
              rcases List.mem_append.mp hx with h2 | h2
              · exact hnr h2
              · simp at h2
                exact hxy h2
      · simp only [addedOf, if_neg h, ih, List.mem_cons]
        constructor
        · rintro ⟨hr, hw, hnr⟩
          exact ⟨Or.inr hr, hw, hnr⟩
        · rintro ⟨hm, hw, hnr⟩
          rcases hm with rfl | h1
          · exact absurd ⟨hw.1, hw.2, hnr⟩ h
          · exact ⟨h1, hw, hnr⟩

theorem addedOf_append_nodup (t : Int) (cands : List NormTiming) :
    ∀ ref, ref.Nodup → (ref ++ addedOf t ref cands).Nodup := by
  induction cands with
  | nil =>
      intro ref h
      simpa [addedOf]
  | cons y rest ih =>
      intro ref h
      by_cases hc : t ≥ y.start ∧ t < y.end_ ∧ y ∉ ref
      · have h2 : (ref ++ [y]).Nodup := by
          rw [List.nodup_append]
          refine ⟨h, List.nodup_singleton y, fun a ha hay => ?_⟩
          rw [List.mem_singleton.mp hay] at ha
          exact hc.2.2 ha
        have h3 := ih (ref ++ [y]) h2
        simp only [addedOf, if_pos hc]
        simpa [List.append_assoc] using h3
      · simp only [addedOf, if_neg hc]
        exact ih ref h

/-! ### Event counting helpers -/

theorem countE_zero_of_forall_ne (e : Event) (l : List Event)
    (h : ∀ x ∈ l, x ≠ e) : countE e l = 0 := by
  induction l with
  | nil => rfl
  | cons x rest ih =>
      simp [countE, h x (List.mem_cons_self x rest),
        ih (fun y hy => h y (List.mem_cons_of_mem x hy))]

theorem mem_enterEventsFor (ev : Event) (c : String) (l : List NormTiming)
    (h : ev ∈ enterEventsFor c l) :
    ∃ y, y ∈ l ∧ (ev = Event.enter c (timingFromRawData c y) ∨
      ev = Event.enterChan c (timingFromRawData c y)) := by
  induction l with
  | nil => simp [enterEventsFor] at h
  | cons y rest ih =>
      simp only [enterEventsFor, List.mem_cons] at h
      rcases h with rfl | rfl | h
      · exact ⟨y, List.mem_cons_self _ _, Or.inl rfl⟩
      · exact ⟨y, List.mem_cons_self _ _, Or.inr rfl⟩
      · obtain ⟨z, hz, hev⟩ := ih h
        exact ⟨z, List.mem_cons_of_mem _ hz, hev⟩

theorem mem_exitEventsFor (ev : Event) (c : String) (l : List NormTiming)
    (h : ev ∈ exitEventsFor c l) :
    ∃ y, y ∈ l ∧ (ev = Event.exit c (exitProjection c y) ∨
      ev = Event.exitChan c (exitProjection c y)) := by
  induction l with
  | nil => simp [exitEventsFor] at h
  | cons y rest ih =>
      simp only [exitEventsFor, List.mem_cons] at h
      rcases h with rfl | rfl | h
      · exact ⟨y, List.mem_cons_self _ _, Or.inl rfl⟩
      · exact ⟨y, List.mem_cons_self _ _, Or.inr rfl⟩
      · obtain ⟨z, hz, hev⟩ := ih h
        exact ⟨z, List.mem_cons_of_mem _ hz, hev⟩

theorem mem_clearEventsFor (ev : Event) (c : String) (l : List NormTiming)
    (h : ev ∈ clearEventsFor c l) :
    ∃ y, y ∈ l ∧ (ev = Event.exit c (timingFromRawData c y) ∨
      ev = Event.exitChan c (timingFromRawData c y)) := by
  induction l with
  | nil => simp [clearEventsFor] at h
  | cons y rest ih =>
      simp only [clearEventsFor, List.mem_cons] at h
      rcases h with rfl | rfl | h
      · exact ⟨y, List.mem_cons_self _ _, Or.inl rfl⟩
      · exact ⟨y, List.mem_cons_self _ _, Or.inr rfl⟩
      · obtain ⟨z, hz, hev⟩ := ih h
        exact ⟨z, List.mem_cons_of_mem _ hz, hev⟩

theorem countE_enter_exitEventsFor (c c' : String) (p : Projection)
    (l : List NormTiming) : countE (Event.enter c p) (exitEventsFor c' l) = 0 := by
  refine countE_zero_of_forall_ne _ _ (fun x hx => ?_)
  obtain ⟨y, _, hev | hev⟩ := mem_exitEventsFor x c' l hx <;> subst hev <;> simp

theorem countE_exit_enterEventsFor (c c' : String) (p : Projection)
    (l : List NormTiming) : countE (Event.exit c p) (enterEventsFor c' l) = 0 := by
  refine countE_zero_of_forall_ne _ _ (fun x hx => ?_)
  obtain ⟨y, _, hev | hev⟩ := mem_enterEventsFor x c' l hx <;> subst hev <;> simp

theorem countE_enter_enterEventsFor_ne (c c' : String) (p : Projection)
    (l : List NormTiming) (h : c' ≠ c) :
    countE (Event.enter c p) (enterEventsFor c' l) = 0 := by
  refine countE_zero_of_forall_ne _ _ (fun x hx => ?_)
  obtain ⟨y, _, hev | hev⟩ := mem_enterEventsFor x c' l hx <;> subst hev <;> simp [h]

theorem countE_exit_exitEventsFor_ne (c c' : String) (p : Projection)
    (l : List NormTiming) (h : c' ≠ c) :
    countE (Event.exit c p) (exitEventsFor c' l) = 0 := by
  refine countE_zero_of_forall_ne _ _ (fun x hx => ?_)
  obtain ⟨y, _, hev | hev⟩ := mem_exitEventsFor x c' l hx <;> subst hev <;> simp [h]

theorem countE_enterEventsFor_self (c : String) (x : NormTiming)
    (l : List NormTiming) (hnd : l.Nodup)
    (huniq : ∀ y ∈ l, timingFromRawData c y = timingFromRawData c x → y = x) :
    countE (Event.enter c (timingFromRawData c x)) (enterEventsFor c l) =
      if x ∈ l then 1 else 0 := by
  induction l with
  | nil => simp [enterEventsFor, countE]
  | cons y rest ih =>
      have hndr : rest.Nodup := (List.nodup_cons.mp hnd).2
      have huniqr : ∀ y' ∈ rest, timingFromRawData c y' = timingFromRawData c x → y' = x :=
        fun y' hy' => huniq y' (List.mem_cons_of_mem _ hy')
      by_cases hyx : timingFromRawData c y = timingFromRawData c x
      · have hxy : y = x := huniq y (List.mem_cons_self _ _) hyx
        subst hxy
        have hxr : y ∉ rest := (List.nodup_cons.mp hnd).1
        have h0 : countE (Event.enter c (timingFromRawData c y)) (enterEventsFor c rest) = 0 := by
          rw [ih hndr huniqr]
          simp [hxr]
        simp [enterEventsFor, countE, h0]
      · have hne : x ≠ y := fun hh => hyx (by rw [hh])
        simp [enterEventsFor, countE, ih hndr huniqr, hyx, hne]

theorem countE_exitEventsFor_self (c : String) (x : NormTiming)
    (l : List NormTiming) (hnd : l.Nodup)
    (huniq : ∀ y ∈ l, exitProjection c y = exitProjection c x → y = x) :
    countE (Event.exit c (exitProjection c x)) (exitEventsFor c l) =
      if x ∈ l then 1 else 0 := by
  induction l with
  | nil => simp [exitEventsFor, countE]
  | cons y rest ih =>
      have hndr : rest.Nodup := (List.nodup_cons.mp hnd).2
      have huniqr : ∀ y' ∈ rest, exitProjection c y' = exitProjection c x → y' = x :=
        fun y' hy' => huniq y' (List.mem_cons_of_mem _ hy')
      by_cases hyx : exitProjection c y = exitProjection c x
      · have hxy : y = x := huniq y (List.mem_cons_self _ _) hyx
        subst hxy
        have hxr : y ∉ rest := (List.nodup_cons.mp hnd).1
        have h0 : countE (Event.exit c (exitProjection c y)) (exitEventsFor c rest) = 0 := by
          rw [ih hndr huniqr]
          simp [hxr]
        simp [exitEventsFor, countE, h0]
      · have hne : x ≠ y := fun hh => hyx (by rw [hh])
        simp [exitEventsFor, countE, ih hndr huniqr, hyx, hne]

theorem countE_clearEventsFor_self (c : String) (x : NormTiming)
    (l : List NormTiming) (hnd : l.Nodup)
    (huniq : ∀ y ∈ l, timingFromRawData c y = timingFromRawData c x → y = x) :
    countE (Event.exit c (timingFromRawData c x)) (clearEventsFor c l) =
      if x ∈ l then 1 else 0 := by
  induction l with
  | nil => simp [clearEventsFor, countE]
  | cons y rest ih =>
      have hndr : rest.Nodup := (List.nodup_cons.mp hnd).2
      have huniqr : ∀ y' ∈ rest, timingFromRawData c y' = timingFromRawData c x → y' = x :=
        fun y' hy' => huniq y' (List.mem_cons_of_mem _ hy')
      by_cases hyx : timingFromRawData c y = timingFromRawData c x
      · have hxy : y = x := huniq y (List.mem_cons_self _ _) hyx
        subst hxy
        have hxr : y ∉ rest := (List.nodup_cons.mp hnd).1
        have h0 : countE (Event.exit c (timingFromRawData c y)) (clearEventsFor c rest) = 0 := by
          rw [ih hndr huniqr]
          simp [hxr]
        simp [clearEventsFor, countE, h0]
      · have hne : x ≠ y := fun hh => hyx (by rw [hh])
        simp [clearEventsFor, countE, ih hndr huniqr, hyx, hne]

/-! ### Characterisation of one channel resolution -/

/-- Candidate fetch of the resolver: point query on a degenerate window,
closed range query otherwise. -/
def candsOf (tree : List NormTiming) (a t : Int) : List NormTiming :=
  if a = t then treeSearchPoint tree t else treeSearchRange tree a t

/-- The survivors of the exit pass. -/
def keptOf (act : List NormTiming) (t : Int) : List NormTiming :=
  act.filter (fun y => !(shouldExit t y))

/-- The channel's active list after one resolution. -/
def newActiveOf (act tree : List NormTiming) (a t : Int) : List NormTiming :=
  keptOf act t ++ addedOf t (keptOf act t) (candsOf tree a t)

/-- The events of one channel resolution: all exits, then all enters. -/
def resolveEventsOf (c : String) (act tree : List NormTiming) (a t : Int) :
    List Event :=
  exitEventsFor c (act.filter (shouldExit t)) ++
  enterEventsFor c (addedOf t (keptOf act t) (candsOf tree a t))

theorem resolveTimingsForChannel_eq (k : Kinetophone) (c : String) (a t : Int) :
    resolveTimingsForChannel k c a t =
      ({ k with activeTimings := setA k.activeTimings c (newActiveOf (chanActive k c) (chanTree k c) a t) },
       resolveEventsOf c (chanActive k c) (chanTree k c) a t) := by
  simp [resolveTimingsForChannel, newActiveOf, resolveEventsOf, candsOf, keptOf,
    enterFold_fst, enterFold_snd]

theorem shouldExit_false_iff (t : Int) (y : NormTiming) :
    shouldExit t y = false ↔ (y.start ≤ t ∧ t < y.end_) := by
  simp [shouldExit]

theorem mem_keptOf (act : List NormTiming) (t : Int) (x : NormTiming) :
    x ∈ keptOf act t ↔ x ∈ act ∧ (x.start ≤ t ∧ t < x.end_) := by
  simp [keptOf, List.mem_filter, shouldExit_false_iff]

theorem candsOf_subset (tree : List NormTiming) (a t : Int) (x : NormTiming)
    (h : x ∈ candsOf tree a t) : x ∈ tree := by
  unfold candsOf at h
  split at h <;> exact (List.mem_filter.mp h).1

theorem mem_candsOf_of_win (tree : List NormTiming) (a t : Int) (x : NormTiming)
    (ha : a ≤ t) (hx : x ∈ tree) (hw : x.start ≤ t ∧ t < x.end_) :
    x ∈ candsOf tree a t := by
  unfold candsOf
  split <;> refine List.mem_filter.mpr ⟨hx, ?_⟩ <;> simp <;> omega

theorem mem_newActiveOf (act tree : List NormTiming) (a t : Int) (x : NormTiming) :
    x ∈ newActiveOf act tree a t ↔
      ((x ∈ act ∨ x ∈ candsOf tree a t) ∧ (x.start ≤ t ∧ t < x.end_)) := by
  simp only [newActiveOf, List.mem_append, mem_addedOf, mem_keptOf]
  constructor
  · rintro (⟨h1, h2⟩ | ⟨h1, h2, h3⟩)
    · exact ⟨Or.inl h1, h2⟩
    · exact ⟨Or.inr h1, h2⟩
  · rintro ⟨h1 | h1, h2⟩
    · exact Or.inl ⟨h1, h2⟩
    · by_cases hk : x ∈ act
      · exact Or.inl ⟨hk, h2⟩
      · refine Or.inr ⟨h1, h2, ?_⟩
        intro hh
        exact hk hh.1

theorem mem_newActiveOf_of_sub (act tree : List NormTiming) (a t : Int)
    (x : NormTiming) (ha : a ≤ t) (hsub : ∀ y ∈ act, y ∈ tree) :
    x ∈ newActiveOf act tree a t ↔ (x ∈ tree ∧ (x.start ≤ t ∧ t < x.end_)) := by
  rw [mem_newActiveOf]
  constructor
  · rintro ⟨h1 | h1, h2⟩
    · exact ⟨hsub x h1, h2⟩
    · exact ⟨candsOf_subset tree a t x h1, h2⟩
  · rintro ⟨h1, h2⟩
    exact ⟨Or.inr (mem_candsOf_of_win tree a t x ha h1 h2), h2⟩

theorem newActiveOf_nodup (act tree : List NormTiming) (a t : Int)
    (h : act.Nodup) : (newActiveOf act tree a t).Nodup :=
  addedOf_append_nodup t (candsOf tree a t) (keptOf act t) (h.filter _)

theorem newActiveOf_win (act tree : List NormTiming) (a t : Int) (x : NormTiming)
    (h : x ∈ newActiveOf act tree a t) : x.start ≤ t ∧ t < x.end_ :=
  ((mem_newActiveOf act tree a t x).mp h).2

theorem newActiveOf_sub (act tree : List NormTiming) (a t : Int)
    (hsub : ∀ y ∈ act, y ∈ tree) :
    ∀ y ∈ newActiveOf act tree a t, y ∈ tree := by
  intro y hy
  rcases ((mem_newActiveOf act tree a t y).mp hy).1 with h | h
  · exact hsub y h
  · exact candsOf_subset tree a t y h

theorem addedOf_resolve_nodup (act tree : List NormTiming) (a t : Int)
    (h : act.Nodup) : (addedOf t (keptOf act t) (candsOf tree a t)).Nodup :=
  ((List.nodup_append.mp (newActiveOf_nodup act tree a t h)).2).1

theorem mem_addedOf_resolve (act tree : List NormTiming) (a t : Int)
    (x : NormTiming) (ha : a ≤ t) (hx : x ∈ tree) :
    x ∈ addedOf t (keptOf act t) (candsOf tree a t) ↔
      (x ∉ act ∧ (x.start ≤ t ∧ t < x.end_)) := by
  rw [mem_addedOf, mem_keptOf]
  constructor
  · rintro ⟨h1, h2, h3⟩
    refine ⟨fun hact => h3 ⟨hact, h2⟩, h2⟩
  · rintro ⟨h1, h2⟩
    exact ⟨mem_candsOf_of_win tree a t x ha hx h2, h2, fun hh => h1 hh.1⟩

theorem countE_enter_resolveEventsOf (c : String) (act tree : List NormTiming)
    (a t : Int) (x : NormTiming)
    (hnd : act.Nodup) (hx : x ∈ tree)
    (ha : a ≤ t)
    (huniq : ∀ y ∈ tree, timingFromRawData c y = timingFromRawData c x → y = x) :
    countE (Event.enter c (timingFromRawData c x)) (resolveEventsOf c act tree a t) =
      if x ∉ act ∧ (x.start ≤ t ∧ t < x.end_) then 1 else 0 := by
  unfold resolveEventsOf
  rw [countE_append, countE_enter_exitEventsFor]
  have hand : (addedOf t (keptOf act t) (candsOf tree a t)).Nodup :=
    addedOf_resolve_nodup act tree a t hnd
  have huniq' : ∀ y ∈ addedOf t (keptOf act t) (candsOf tree a t),
      timingFromRawData c y = timingFromRawData c x → y = x := by
    intro y hy
    have hys : y ∈ tree := by
      have := ((mem_addedOf y t (candsOf tree a t) (keptOf act t)).mp hy).1
      exact candsOf_subset tree a t y this
    exact huniq y hys
  rw [countE_enterEventsFor_self c x _ hand huniq']
  simp only [mem_addedOf_resolve act tree a t x ha hx]
  simp

theorem countE_exit_resolveEventsOf (c : String) (act tree : List NormTiming)
    (a t : Int) (x : NormTiming)
    (hnd : act.Nodup)
    (hsub : ∀ y ∈ act, y ∈ tree)
    (huniq : ∀ y ∈ tree, exitProjection c y = exitProjection c x → y = x) :
    countE (Event.exit c (exitProjection c x)) (resolveEventsOf c act tree a t) =
      if x ∈ act ∧ ¬(x.start ≤ t ∧ t < x.end_) then 1 else 0 := by
  unfold resolveEventsOf
  rw [countE_append, countE_exit_enterEventsFor]
  have hfnd : (act.filter (shouldExit t)).Nodup := hnd.filter _
  have huniq' : ∀ y ∈ act.filter (shouldExit t),
      exitProjection c y = exitProjection c x → y = x := by
    intro y hy
    exact huniq y (hsub y (List.mem_filter.mp hy).1)
  rw [countE_exitEventsFor_self c x _ hfnd huniq']
  have : x ∈ act.filter (shouldExit t) ↔ (x ∈ act ∧ ¬(x.start ≤ t ∧ t < x.end_)) := by
    rw [List.mem_filter]
    constructor
    · rintro ⟨h1, h2⟩
      refine ⟨h1, ?_⟩
      intro hw
      rw [← shouldExit_false_iff] at hw
      rw [hw] at h2
      exact Bool.noConfusion h2
    · rintro ⟨h1, h2⟩
      refine ⟨h1, ?_⟩
      cases hse : shouldExit t x
      · exact absurd ((shouldExit_false_iff t x).mp hse) h2
      · rfl
  rw [if_congr this rfl rfl]
  simp

theorem countE_enter_resolveEventsOf_ne (c c' : String) (p : Projection)
    (act tree : List NormTiming) (a t : Int) (h : c' ≠ c) :
    countE (Event.enter c p) (resolveEventsOf c' act tree a t) = 0 := by
  unfold resolveEventsOf
  rw [countE_append, countE_enter_exitEventsFor, countE_enter_enterEventsFor_ne _ _ _ _ h]

theorem countE_exit_resolveEventsOf_ne (c c' : String) (p : Projection)
    (act tree : List NormTiming) (a t : Int) (h : c' ≠ c) :
    countE (Event.exit c p) (resolveEventsOf c' act tree a t) = 0 := by
  unfold resolveEventsOf
  rw [countE_append, countE_exit_enterEventsFor, countE_exit_exitEventsFor_ne _ _ _ _ h]

/-! ### Lifting one-channel facts through the channel loop -/

theorem resolveList_state (k : Kinetophone) (names : List String) (a t : Int) :
    (resolveList k names a t).1.channels = k.channels ∧
    (resolveList k names a t).1.totalDuration = k.totalDuration ∧
    (resolveList k names a t).1.playing = k.playing ∧
    (resolveList k names a t).1.clockRunning = k.clockRunning ∧
    (resolveList k names a t).1.clockTime = k.clockTime ∧
    (resolveList k names a t).1.lastTimerCallback = k.lastTimerCallback ∧
    (resolveList k names a t).1.tickResolution = k.tickResolution ∧
    (resolveList k names a t).1.rate = k.rate := by
  induction names generalizing k with
  | nil => simp [resolveList]
  | cons c rest ih =>
      simp only [resolveList, resolveTimingsForChannel_eq]
      exact ih _

theorem chanTree_congr (k1 k2 : Kinetophone) (c : String)
    (h : k1.channels = k2.channels) : chanTree k1 c = chanTree k2 c := by
  unfold chanTree
  rw [h]

theorem resolveList_chanTree (k : Kinetophone) (names : List String) (a t : Int)
    (c : String) : chanTree ((resolveList k names a t).1) c = chanTree k c :=
  chanTree_congr _ _ _ (resolveList_state k names a t).1

theorem resolveList_active_not_mem (k : Kinetophone) (names : List String)
    (a t : Int) (c : String) (h : c ∉ names) :
    chanActive ((resolveList k names a t).1) c = chanActive k c := by
  induction names generalizing k with
  | nil => simp [resolveList]
  | cons n rest ih =>
      have hnc : c ≠ n := fun hh => h (by simp [hh])
      have hrest : c ∉ rest := fun hh => h (List.mem_cons_of_mem _ hh)
      simp only [resolveList, resolveTimingsForChannel_eq]
      rw [ih _ hrest]
      simp [chanActive, lookupA_setA_ne _ _ _ _ hnc]

theorem resolveList_active_mem (k : Kinetophone) (names : List String)
    (a t : Int) (c : String) (hnd : names.Nodup) (h : c ∈ names) :
    chanActive ((resolveList k names a t).1) c =
      newActiveOf (chanActive k c) (chanTree k c) a t := by
  induction names generalizing k with
  | nil => simp at h
  | cons n rest ih =>
      by_cases hcn : c = n
      · subst hcn
        have hcrest : c ∉ rest := (List.nodup_cons.mp hnd).1
        simp only [resolveList, resolveTimingsForChannel_eq]
        rw [resolveList_active_not_mem _ _ _ _ _ hcrest]
        simp [chanActive, lookupA_setA_self]
      · have h2 : c ∈ rest := by
          rcases List.mem_cons.mp h with h | h
          · exact absurd h hcn
          · exact h
        simp only [resolveList, resolveTimingsForChannel_eq]
        rw [ih _ (List.nodup_cons.mp hnd).2 h2]
        have ha : chanActive { k with activeTimings := setA k.activeTimings n (newActiveOf (chanActive k n) (chanTree k n) a t) } c = chanActive k c := by
          simp [chanActive, lookupA_setA_ne _ _ _ _ hcn]
        rw [ha]
        simp [chanTree]

theorem resolveList_countE_enter_zero (k : Kinetophone) (names : List String)
    (a t : Int) (c : String) (p : Projection) (h : c ∉ names) :
    countE (Event.enter c p) ((resolveList k names a t).2) = 0 := by
  induction names generalizing k with
  | nil => simp [resolveList, countE]
  | cons n rest ih =>
      have hnc : n ≠ c := fun hh => h (by simp [hh])
      have hrest : c ∉ rest := fun hh => h (List.mem_cons_of_mem _ hh)
      simp only [resolveList, resolveTimingsForChannel_eq]
      rw [countE_append, countE_enter_resolveEventsOf_ne _ _ _ _ _ _ _ hnc, ih _ hrest]

theorem resolveList_countE_exit_zero (k : Kinetophone) (names : List String)
    (a t : Int) (c : String) (p : Projection) (h : c ∉ names) :
    countE (Event.exit c p) ((resolveList k names a t).2) = 0 := by
  induction names generalizing k with
  | nil => simp [resolveList, countE]
  | cons n rest ih =>
      have hnc : n ≠ c := fun hh => h (by simp [hh])
      have hrest : c ∉ rest := fun hh => h (List.mem_cons_of_mem _ hh)
      simp only [resolveList, resolveTimingsForChannel_eq]
      rw [countE_append, countE_exit_resolveEventsOf_ne _ _ _ _ _ _ _ hnc, ih _ hrest]

theorem resolveList_countE_enter (k : Kinetophone) (names : List String)
    (a t : Int) (c : String) (p : Projection) (hnd : names.Nodup) (hc : c ∈ names) :
    countE (Event.enter c p) ((resolveList k names a t).2) =
      countE (Event.enter c p)
        (resolveEventsOf c (chanActive k c) (chanTree k c) a t) := by
  induction names generalizing k with
  | nil => simp at hc
  | cons n rest ih =>
      by_cases hcn : c = n
      · subst hcn
        have hcrest : c ∉ rest := (List.nodup_cons.mp hnd).1
        simp only [resolveList, resolveTimingsForChannel_eq]
        rw [countE_append, resolveList_countE_enter_zero _ _ _ _ _ _ hcrest]
        omega
      · have h2 : c ∈ rest := by
          rcases List.mem_cons.mp hc with h | h
          · exact absurd h hcn
          · exact h
        simp only [resolveList, resolveTimingsForChannel_eq]
        rw [countE_append, countE_enter_resolveEventsOf_ne _ _ _ _ _ _ _ (Ne.symm hcn),
          ih _ (List.nodup_cons.mp hnd).2 h2]
        have ha : chanActive { k with activeTimings := setA k.activeTimings n (newActiveOf (chanActive k n) (chanTree k n) a t) } c = chanActive k c := by
          simp [chanActive, lookupA_setA_ne _ _ _ _ hcn]
        rw [ha]
        simp [chanTree]

theorem resolveList_countE_exit (k : Kinetophone) (names : List String)
    (a t : Int) (c : String) (p : Projection) (hnd : names.Nodup) (hc : c ∈ names) :
    countE (Event.exit c p) ((resolveList k names a t).2) =
      countE (Event.exit c p)
        (resolveEventsOf c (chanActive k c) (chanTree k c) a t) := by
  induction names generalizing k with
  | nil => simp at hc
  | cons n rest ih =>
      by_cases hcn : c = n
      · subst hcn
        have hcrest : c ∉ rest := (List.nodup_cons.mp hnd).1
        simp only [resolveList, resolveTimingsForChannel_eq]
        rw [countE_append, resolveList_countE_exit_zero _ _ _ _ _ _ hcrest]
        omega
      · have h2 : c ∈ rest := by
          rcases List.mem_cons.mp hc with h | h
          · exact absurd h hcn
          · exact h
        simp only [resolveList, resolveTimingsForChannel_eq]
        rw [countE_append, countE_exit_resolveEventsOf_ne _ _ _ _ _ _ _ (Ne.symm hcn),
          ih _ (List.nodup_cons.mp hnd).2 h2]
        have ha : chanActive { k with activeTimings := setA k.activeTimings n (newActiveOf (chanActive k n) (chanTree k n) a t) } c = chanActive k c := by
          simp [chanActive, lookupA_setA_ne _ _ _ _ hcn]
        rw [ha]
        simp [chanTree]

/-! ### Clearing lemmas and event-shape lemmas -/

theorem clearList_state (k : Kinetophone) (names : List String) :
    (clearList k names).1.channels = k.channels ∧
    (clearList k names).1.totalDuration = k.totalDuration ∧
    (clearList k names).1.playing = k.playing ∧
    (clearList k names).1.clockRunning = k.clockRunning ∧
    (clearList k names).1.clockTime = k.clockTime ∧
    (clearList k names).1.lastTimerCallback = k.lastTimerCallback ∧
    (clearList k names).1.tickResolution = k.tickResolution ∧
    (clearList k names).1.rate = k.rate := by
  induction names generalizing k with
  | nil => simp [clearList]
  | cons c rest ih =>
      simp only [clearList, clearAllTimingsForChannel]
      exact ih _

theorem clearList_active_not_mem (k : Kinetophone) (names : List String)
    (c : String) (h : c ∉ names) :
    chanActive ((clearList k names).1) c = chanActive k c := by
  induction names generalizing k with
  | nil => simp [clearList]
  | cons n rest ih =>
      have hnc : c ≠ n := fun hh => h (by simp [hh])
      have hrest : c ∉ rest := fun hh => h (List.mem_cons_of_mem _ hh)
      simp only [clearList, clearAllTimingsForChannel]
      rw [ih _ hrest]
      simp [chanActive, lookupA_setA_ne _ _ _ _ hnc]

theorem clearList_active_mem (k : Kinetophone) (names : List String)
    (c : String) (h : c ∈ names) :
    chanActive ((clearList k names).1) c = [] := by
  induction names generalizing k with
  | nil => simp at h
  | cons n rest ih =>
      by_cases hc : c ∈ rest
      · simp only [clearList, clearAllTimingsForChannel]
        exact ih _ hc
      · have hcn : c = n := by
          rcases List.mem_cons.mp h with h1 | h1
          · exact h1
          · exact absurd h1 hc
        subst hcn
        simp only [clearList, clearAllTimingsForChannel]
        rw [clearList_active_not_mem _ _ _ hc]
        simp [chanActive, lookupA_setA_self]

theorem countE_exit_clearEventsFor_ne (c c' : String) (p : Projection)
    (l : List NormTiming) (h : c' ≠ c) :
    countE (Event.exit c p) (clearEventsFor c' l) = 0 := by
  refine countE_zero_of_forall_ne _ _ (fun x hx => ?_)
  obtain ⟨y, _, hev | hev⟩ := mem_clearEventsFor x c' l hx <;> subst hev <;> simp [h]

theorem clearList_countE_exit_zero (k : Kinetophone) (names : List String)
    (c : String) (p : Projection) (h : c ∉ names) :
    countE (Event.exit c p) ((clearList k names).2) = 0 := by
  induction names generalizing k with
  | nil => simp [clearList, countE]
  | cons n rest ih =>
      have hnc : n ≠ c := fun hh => h (by simp [hh])
      have hrest : c ∉ rest := fun hh => h (List.mem_cons_of_mem _ hh)
      simp only [clearList, clearAllTimingsForChannel]
      rw [countE_append, countE_exit_clearEventsFor_ne _ _ _ _ hnc, ih _ hrest]

theorem clearList_countE_exit (k : Kinetophone) (names : List String)
    (c : String) (p : Projection) (hnd : names.Nodup) (hc : c ∈ names) :
    countE (Event.exit c p) ((clearList k names).2) =
      countE (Event.exit c p) (clearEventsFor c (chanActive k c)) := by
  induction names generalizing k with
  | nil => simp at hc
  | cons n rest ih =>
      by_cases hcn : c = n
      · subst hcn
        have hcrest : c ∉ rest := (List.nodup_cons.mp hnd).1
        simp only [clearList, clearAllTimingsForChannel]
        rw [countE_append, clearList_countE_exit_zero _ _ _ _ hcrest]
        omega
      · have h2 : c ∈ rest := by
          rcases List.mem_cons.mp hc with h | h
          · exact absurd h hcn
          · exact h
        simp only [clearList, clearAllTimingsForChannel]
        rw [countE_append, countE_exit_clearEventsFor_ne _ _ _ _ (Ne.symm hcn),
          ih _ (List.nodup_cons.mp hnd).2 h2]
        have ha : chanActive { k with activeTimings := setA k.activeTimings n [] } c = chanActive k c := by
          simp [chanActive, lookupA_setA_ne _ _ _ _ hcn]
        rw [ha]
        omega

theorem countE_resolveEventsOf_zero_of_shape (e : Event) (c : String)
    (act tree : List NormTiming) (a t : Int)
    (h1 : ∀ ch p, e ≠ Event.enter ch p) (h2 : ∀ ch p, e ≠ Event.enterChan ch p)
    (h3 : ∀ ch p, e ≠ Event.exit ch p) (h4 : ∀ ch p, e ≠ Event.exitChan ch p) :
    countE e (resolveEventsOf c act tree a t) = 0 := by
  refine countE_zero_of_forall_ne _ _ (fun x hx => ?_)
  unfold resolveEventsOf at hx
  rcases List.mem_append.mp hx with h | h
  · obtain ⟨y, _, hev | hev⟩ := mem_exitEventsFor x _ _ h <;> subst hev
    · exact fun hh => h3 _ _ hh.symm
    · exact fun hh => h4 _ _ hh.symm
  · obtain ⟨y, _, hev | hev⟩ := mem_enterEventsFor x _ _ h <;> subst hev
    · exact fun hh => h1 _ _ hh.symm
    · exact fun hh => h2 _ _ hh.symm

theorem countE_resolveList_zero_of_shape (e : Event) (k : Kinetophone)
    (names : List String) (a t : Int)
    (h1 : ∀ ch p, e ≠ Event.enter ch p) (h2 : ∀ ch p, e ≠ Event.enterChan ch p)
    (h3 : ∀ ch p, e ≠ Event.exit ch p) (h4 : ∀ ch p, e ≠ Event.exitChan ch p) :
    countE e ((resolveList k names a t).2) = 0 := by
  induction names generalizing k with
  | nil => simp [resolveList, countE]
  | cons n rest ih =>
      simp only [resolveList, resolveTimingsForChannel_eq]
      rw [countE_append, countE_resolveEventsOf_zero_of_shape e _ _ _ _ _ h1 h2 h3 h4, ih _]

theorem countE_clearList_zero_of_shape (e : Event) (k : Kinetophone)
    (names : List String)
    (h3 : ∀ ch p, e ≠ Event.exit ch p) (h4 : ∀ ch p, e ≠ Event.exitChan ch p) :
    countE e ((clearList k names).2) = 0 := by
  induction names generalizing k with
  | nil => simp [clearList, countE]
  | cons n rest ih =>
      simp only [clearList, clearAllTimingsForChannel]
      rw [countE_append, ih _]
      have : countE e (clearEventsFor n (chanActive k n)) = 0 := by
        refine countE_zero_of_forall_ne _ _ (fun x hx => ?_)
        obtain ⟨y, _, hev | hev⟩ := mem_clearEventsFor x _ _ hx <;> subst hev
        · exact fun hh => h3 _ _ hh.symm
        · exact fun hh => h4 _ _ hh.symm
      omega

/-! ### Active-set invariants through the resolver and the clearer -/

theorem resolveList_active_nodup (k : Kinetophone) (names : List String) (a t : Int)
    (h : ∀ c, (chanActive k c).Nodup) :
    ∀ c, (chanActive ((resolveList k names a t).1) c).Nodup := by
  induction names generalizing k with
  | nil => simpa [resolveList]
  | cons n rest ih =>
      simp only [resolveList, resolveTimingsForChannel_eq]
      apply ih
      intro c
      by_cases hcn : c = n
      · subst hcn
        simpa [chanActive, lookupA_setA_self] using
          newActiveOf_nodup (chanActive k c) (chanTree k c) a t (h c)
      · simpa [chanActive, lookupA_setA_ne _ _ _ _ hcn] using h c

theorem resolveList_active_sub (k : Kinetophone) (names : List String) (a t : Int)
    (h : ∀ c, ∀ y ∈ chanActive k c, y ∈ chanTree k c) :
    ∀ c, ∀ y ∈ chanActive ((resolveList k names a t).1) c,
      y ∈ chanTree ((resolveList k names a t).1) c := by
  induction names generalizing k with
  | nil => simpa [resolveList]
  | cons n rest ih =>
      simp only [resolveList, resolveTimingsForChannel_eq]
      apply ih
      intro c
      by_cases hcn : c = n
      · subst hcn
        intro y hy
        have hy' : y ∈ newActiveOf (chanActive k c) (chanTree k c) a t := by
          simpa [chanActive, lookupA_setA_self] using hy
        have := newActiveOf_sub (chanActive k c) (chanTree k c) a t (h c) y hy'
        simpa [chanTree] using this
      · intro y hy
        have hy' : y ∈ chanActive k c := by
          simpa [chanActive, lookupA_setA_ne _ _ _ _ hcn] using hy
        have := h c y hy'
        simpa [chanTree] using this

theorem clearList_active_nodup (k : Kinetophone) (names : List String)
    (h : ∀ c, (chanActive k c).Nodup) :
    ∀ c, (chanActive ((clearList k names).1) c).Nodup := by
  intro c
  by_cases hc : c ∈ names
  · simp [clearList_active_mem _ _ _ hc]
  · rw [clearList_active_not_mem _ _ _ hc]
    exact h c

/-! ### Pointwise no-duplicates preservation across the public surface -/

theorem resolveList_active_nodup_pt (names : List String) (a t : Int) (c : String) :
    ∀ k : Kinetophone, (chanActive k c).Nodup →
      (chanActive ((resolveList k names a t).1) c).Nodup := by
  induction names with
  | nil => intro k h; simpa [resolveList]
  | cons n rest ih =>
      intro k h
      simp only [resolveList, resolveTimingsForChannel_eq]
      apply ih
      by_cases hcn : c = n
      · subst hcn
        simpa [chanActive, lookupA_setA_self] using
          newActiveOf_nodup (chanActive k c) (chanTree k c) a t h
      · simpa [chanActive, lookupA_setA_ne _ _ _ _ hcn] using h

theorem clearList_active_nodup_pt (names : List String) (c : String) :
    ∀ k : Kinetophone, (chanActive k c).Nodup →
      (chanActive ((clearList k names).1) c).Nodup := by
  intro k h
  by_cases hc : c ∈ names
  · simp [clearList_active_mem _ _ _ hc]
  · rw [clearList_active_not_mem _ _ _ hc]
    exact h

theorem addChannel_active_nodup_pt (k : Kinetophone) (cdecl : ChannelDecl)
    (c : String) (h : (chanActive k c).Nodup) :
    (chanActive ((addChannel k cdecl).1) c).Nodup := by
  unfold addChannel
  by_cases hd : (lookupA k.channels cdecl.name).isSome
  · simpa [hd] using h
  · simp only [hd, Bool.false_eq_true, if_false]
    by_cases hcn : c = cdecl.name
    · subst hcn
      simp [chanActive, lookupA_setA_self]
    · simpa [chanActive, lookupA_setA_ne _ _ _ _ hcn] using h

theorem rebuildChannels_active_nodup_pt (names : List String) (c : String) :
    ∀ k : Kinetophone, (chanActive k c).Nodup →
      (chanActive ((rebuildChannels k names).1) c).Nodup := by
  induction names with
  | nil => intro k h; simpa [rebuildChannels]
  | cons n rest ih =>
      intro k h
      unfold rebuildChannels
      cases hl : lookupA k.channels n with
      | none => exact ih k h
      | some ch =>
          simp only []
          have h1 : (chanActive { k with channels := removeA k.channels n } c).Nodup := h
          have h2 := addChannel_active_nodup_pt
            { k with channels := removeA k.channels n } ⟨ch.name, some ch.timings⟩ c h1
          cases he : (addChannel { k with channels := removeA k.channels n }
              ⟨ch.name, some ch.timings⟩).2 with
          | some e => simpa [he] using h2
          | none => simpa [he] using ih _ h2

theorem pause_fields (k : Kinetophone) :
    (pause k).1.activeTimings = k.activeTimings ∧
    (pause k).1.channels = k.channels ∧
    (pause k).1.playing = false ∧
    (pause k).1.totalDuration = k.totalDuration ∧
    (pause k).1.clockTime = k.clockTime ∧
    (pause k).1.lastTimerCallback = k.lastTimerCallback ∧
    (pause k).1.clockRunning = (if k.playing then false else k.clockRunning) := by
  unfold pause
  by_cases hp : k.playing <;> simp [hp]

theorem tickResolvePhase_active_nodup_pt (k : Kinetophone) (time : Int)
    (c : String) (h : (chanActive k c).Nodup) :
    (chanActive ((tickResolvePhase k time).1) c).Nodup := by
  unfold tickResolvePhase
  cases hl : k.lastTimerCallback with
  | none =>
      simp only [resolveTimings]
      exact resolveList_active_nodup_pt _ _ _ _ _ h
  | some last =>
      by_cases hres : time - last ≥ k.tickResolution
      · simp only [if_pos hres, resolveTimings]
        have := resolveList_active_nodup_pt (k.channels.map Prod.fst) (last + 1) time c k h
        simpa [chanActive] using this
      · simpa [if_neg hres] using h

theorem rolloverPhase_active_nodup_pt (k : Kinetophone) (time : Int)
    (c : String) (h : (chanActive k c).Nodup) :
    (chanActive ((rolloverPhase k time).1) c).Nodup := by
  unfold rolloverPhase
  by_cases ht : time > k.totalDuration
  · simp only [if_pos ht, clearAllTimings]
    apply clearList_active_nodup_pt
    have hp : (pause k).1.activeTimings = k.activeTimings := (pause_fields k).1
    simpa [chanActive, hp] using h
  · simpa [if_neg ht] using h

theorem timerCallback_active_nodup_pt (k : Kinetophone) (time : Int)
    (c : String) (h : (chanActive k c).Nodup) :
    (chanActive ((timerCallback k time).1) c).Nodup := by
  unfold timerCallback
  simp only []
  apply rolloverPhase_active_nodup_pt
  apply tickResolvePhase_active_nodup_pt
  exact h

theorem play_active_nodup_pt (k : Kinetophone) (c : String)
    (h : (chanActive k c).Nodup) : (chanActive ((play k).1) c).Nodup := by
  unfold play
  by_cases hp : k.playing
  · simpa [hp] using h
  · simp only [hp, Bool.false_eq_true, if_false]
    by_cases hc : k.clockTime ≥ k.totalDuration
    · simp only [if_pos hc, clearAllTimings]
      apply clearList_active_nodup_pt
      simpa [chanActive] using h
    · simpa [if_neg hc] using h

theorem addTiming_activeTimings (k : Kinetophone) (n : String) (t : TimingDecl) :
    (addTiming k n t).1.activeTimings = k.activeTimings := by
  unfold addTiming
  cases hl : lookupA k.channels n with
  | none => simp [hl]
  | some ch =>
      simp only [hl]
      cases addTimingToTree ch.tree t with
      | error e => rfl
      | ok tree' => rfl

/-- Claim C9 (amended), part one: every public operation preserves
duplicate-freedom of every channel's active list. -/
theorem step_active_nodup (k : Kinetophone) (op : Op) (c : String)
    (h : (chanActive k c).Nodup) : (chanActive (step k op) c).Nodup := by
  cases op with
  | tick t => exact timerCallback_active_nodup_pt k t c h
  | opPlay => exact play_active_nodup_pt k c h
  | opPause =>
      unfold step
      have hp : (pause k).1.activeTimings = k.activeTimings := (pause_fields k).1
      simpa [chanActive, hp] using h
  | opCurrentTime t =>
      unfold step currentTimeOp
      cases t with
      | undef => simpa using h
      | num t0 =>
          simp only [resolveTimings]
          have := resolveList_active_nodup_pt
            ({ k with lastTimerCallback := some t0, clockTime := clampSeek { k with lastTimerCallback := some t0 } t0 }.channels.map Prod.fst)
            (clampSeek { k with lastTimerCallback := some t0 } t0)
            (clampSeek { k with lastTimerCallback := some t0 } t0) c
            { k with lastTimerCallback := some t0, clockTime := clampSeek { k with lastTimerCallback := some t0 } t0 } h
          simpa [chanActive] using this
  | opAddChannel cdecl => exact addChannel_active_nodup_pt k cdecl c h
  | opAddTiming n t =>
      unfold step
      simpa [chanActive, addTiming_activeTimings] using h
  | opTotalDuration d =>
      cases d with
      | undef => simpa [step, totalDurationOp] using h
      | null => simpa [step, totalDurationOp] using h
      | num dd =>
          unfold step totalDurationOp
          simp only []
          exact rebuildChannels_active_nodup_pt _ c _ h
  | opPlaybackRate r =>
      unfold step playbackRate
      cases r <;> simpa using h
  | opGetTimingsAt t chs => simpa [step] using h

/-! ### Claim C9 -/

/-- Claim C9 (amended): every public operation preserves the absence of
duplicate entries in each channel's active set; and immediately after a
resolution over any window ending at time `t`, every entry of a resolved
channel's active set satisfies `start ≤ t < end`.  The window condition
holds against the resolution time, not against the continuously advancing
clock: a tick batched away by the resolution threshold advances the clock
without touching active sets, so the claim as stated against the current
clock time fails (see the counterexample). -/
theorem active_set_invariants (k : Kinetophone) :
    (∀ op c, (chanActive k c).Nodup → (chanActive (step k op) c).Nodup) ∧
    (∀ a t c, (k.channels.map Prod.fst).Nodup → c ∈ k.channels.map Prod.fst →
      ∀ y ∈ chanActive ((resolveTimings k a t).1) c, y.start ≤ t ∧ t < y.end_) := by
  constructor
  · intro op c h
    exact step_active_nodup k op c h
  · intro a t c hnd hc y hy
    rw [resolveTimings, resolveList_active_mem _ _ _ _ _ hnd hc] at hy
    exact newActiveOf_win _ _ _ _ _ hy

/-- The concrete engine used by several witnesses: one channel `"c"` with a
single timing `{start: 0, end: 5}`, total duration 100, default resolution. -/
def cexDecl : TimingDecl := ⟨0, some 5, none, none⟩

def K9 : Kinetophone := (mkKinetophone [⟨"c", some [cexDecl]⟩] 100 none).1

def K9a : Kinetophone := step K9 (Op.tick 0)

def K9b : Kinetophone := step K9a (Op.tick 10)

theorem active_set_invariants_witness :
    (chanActive (step K9a (Op.tick 10)) "c").Nodup ∧
    (∀ y ∈ chanActive ((resolveTimings K9 0 0).1) "c", y.start ≤ 0 ∧ 0 < y.end_) :=
  ⟨(active_set_invariants K9a).1 (Op.tick 10) "c" (by decide),
   (active_set_invariants K9).2 0 0 "c" (by decide) (by decide)⟩

/-- Claim C9 counterexample: after tick 0 enters the timing `(0,5)`, a tick
at time 10 is batched away (10 − 0 < 33): the clock advances to 10 but the
active set still holds the timing, violating `start ≤ clockTime < end` for
the engine's current clock time. -/
theorem active_set_clock_window_cex :
    chanActive K9b "c" ≠ [] ∧ K9b.clockTime = 10 ∧
    ¬(∀ y ∈ chanActive K9b "c", y.start ≤ K9b.clockTime ∧ K9b.clockTime < y.end_) := by
  decide

/-! ### Point/range coincidence of the very first resolution (Claim C2) -/

theorem filter_filter_of_imp {α : Type} (p q : α → Bool) (l : List α)
    (h : ∀ a, p a = true → q a = true) : (l.filter q).filter p = l.filter p := by
  induction l with
  | nil => rfl
  | cons x rest ih =>
      by_cases hp : p x = true
      · have hq := h x hp
        simp [hq, hp, ih]
      · by_cases hq : q x = true <;> simp [hq, hp, ih]

theorem addedOf_filter_win (t : Int) (cands : List NormTiming) :
    ∀ ref, addedOf t ref cands =
      addedOf t ref (cands.filter (fun y => decide (y.start ≤ t) && decide (t < y.end_))) := by
  induction cands with
  | nil => intro ref; simp [addedOf]
  | cons y rest ih =>
      intro ref
      by_cases hw : y.start ≤ t ∧ t < y.end_
      · by_cases hr : y ∈ ref
        · have hg : ¬(t ≥ y.start ∧ t < y.end_ ∧ y ∉ ref) := fun hh => hh.2.2 hr
          simp only [addedOf, if_neg hg, List.filter_cons,
            show (decide (y.start ≤ t) && decide (t < y.end_)) = true by simp [hw.1, hw.2]]
          exact ih ref
        · have hg : t ≥ y.start ∧ t < y.end_ ∧ y ∉ ref := ⟨hw.1, hw.2, hr⟩
          simp only [addedOf, if_pos hg, List.filter_cons,
            show (decide (y.start ≤ t) && decide (t < y.end_)) = true by simp [hw.1, hw.2]]
          rw [ih (ref ++ [y])]
      · have hg : ¬(t ≥ y.start ∧ t < y.end_ ∧ y ∉ ref) := fun hh => hw ⟨hh.1, hh.2.1⟩
        simp only [addedOf, if_neg hg, List.filter_cons,
          show (decide (y.start ≤ t) && decide (t < y.end_)) = false by
            rcases Decidable.not_and_iff_or_not.mp hw with h | h <;> simp [h]]
        exact ih ref

theorem candsOf_zero_filter_win (tree : List NormTiming) (t : Int) (ht : 0 ≤ t) :
    (candsOf tree 0 t).filter (fun y => decide (y.start ≤ t) && decide (t < y.end_)) =
    (candsOf tree t t).filter (fun y => decide (y.start ≤ t) && decide (t < y.end_)) := by
  by_cases h0 : (0 : Int) = t
  · rw [h0]
  · have himp1 : ∀ a : NormTiming, (decide (a.start ≤ t) && decide (t < a.end_)) = true →
        (decide (a.start ≤ t) && decide (t ≤ a.end_)) = true := by
      intro a ha
      simp only [Bool.and_eq_true, decide_eq_true_eq] at ha ⊢
      omega
    have himp2 : ∀ a : NormTiming, (decide (a.start ≤ t) && decide (t < a.end_)) = true →
        (decide (a.start ≤ t) && decide ((0:Int) ≤ a.end_)) = true := by
      intro a ha
      simp only [Bool.and_eq_true, decide_eq_true_eq] at ha ⊢
      omega
    unfold candsOf treeSearchPoint treeSearchRange
    rw [if_neg h0, if_pos rfl, filter_filter_of_imp _ _ _ himp2,
      filter_filter_of_imp _ _ _ himp1]

theorem addedOf_zero_point (tree ref : List NormTiming) (t : Int) (ht : 0 ≤ t) :
    addedOf t ref (candsOf tree 0 t) = addedOf t ref (candsOf tree t t) := by
  rw [addedOf_filter_win t (candsOf tree 0 t) ref,
    addedOf_filter_win t (candsOf tree t t) ref,
    candsOf_zero_filter_win tree t ht]

theorem resolveTimingsForChannel_zero_point (k : Kinetophone) (c : String)
    (t : Int) (ht : 0 ≤ t) :
    resolveTimingsForChannel k c 0 t = resolveTimingsForChannel k c t t := by
  rw [resolveTimingsForChannel_eq, resolveTimingsForChannel_eq]
  unfold newActiveOf resolveEventsOf
  rw [addedOf_zero_point _ _ _ ht]

theorem resolveList_zero_point (names : List String) (t : Int) (ht : 0 ≤ t) :
    ∀ k : Kinetophone, resolveList k names 0 t = resolveList k names t t := by
  induction names with
  | nil => intro k; rfl
  | cons n rest ih =>
      intro k
      simp only [resolveList]
      rw [resolveTimingsForChannel_zero_point _ _ _ ht, ih]

/-- Claim C2: on receiving elapsed time `t` (with `0 ≤ t ≤ totalDuration`,
per the Clock contract and short of rollover) while the checkpoint is unset,
the callback emits `timeupdate(t)`, resolves every channel with the same
state and events as a point query at `t` (the code passes the window
`(0, t)`, but the enter filter makes it coincide with the point
resolution), and sets `lastResolvedTime = t`. -/
theorem tick_first_observation_point (k : Kinetophone) (t : Int)
    (h1 : k.lastTimerCallback = none) (h2 : 0 ≤ t) (h3 : t ≤ k.totalDuration) :
    timerCallback k t =
      ((resolveTimings { k with clockTime := t, lastTimerCallback := some t } t t).1,
       Event.timeupdate t ::
         (resolveTimings { k with clockTime := t, lastTimerCallback := some t } t t).2) := by
  unfold timerCallback tickResolvePhase
  simp only [h1]
  rw [resolveTimings, resolveTimings, resolveList_zero_point _ _ h2]
  have hdur :
      ((resolveList { k with clockTime := t, lastTimerCallback := some t }
        ({ k with clockTime := t, lastTimerCallback := some t }.channels.map Prod.fst)
        t t).1).totalDuration = k.totalDuration :=
    (resolveList_state _ _ _ _).2.1
  unfold rolloverPhase
  rw [hdur, if_neg (by omega)]
  simp

theorem tick_first_observation_point_witness :
    timerCallback K9 5 =
      ((resolveTimings { K9 with clockTime := 5, lastTimerCallback := some 5 } 5 5).1,
       Event.timeupdate 5 ::
         (resolveTimings { K9 with clockTime := 5, lastTimerCallback := some 5 } 5 5).2) :=
  tick_first_observation_point K9 5 (by decide) (by decide) (by decide)

/-! ### Claim C5 -/

/-- Claim C5 (amended): `seek(newTime)` clamps `newTime` into
`[0, totalDuration]` and then, in order, emits `seeking`, repositions the
clock, emits `timeupdate`, performs a point resolution, and emits `seek`,
all four events carrying the clamped value — but `lastResolvedTime` is
assigned the raw, unclamped `newTime`, because the assignment precedes the
clamping in the source. -/
theorem seek_behavior (k : Kinetophone) (t0 : Int) :
    (currentTimeOp k (TimeArg.num t0)).2.1.lastTimerCallback = some t0 ∧
    (currentTimeOp k (TimeArg.num t0)).2.1.clockTime = clampSeek k t0 ∧
    (0 ≤ k.totalDuration → 0 ≤ clampSeek k t0 ∧ clampSeek k t0 ≤ k.totalDuration) ∧
    (currentTimeOp k (TimeArg.num t0)).2.2 =
      Event.seeking (clampSeek k t0) :: Event.timeupdate (clampSeek k t0) ::
        ((resolveTimings { k with lastTimerCallback := some t0, clockTime := clampSeek k t0 } (clampSeek k t0) (clampSeek k t0)).2 ++ [Event.seek (clampSeek k t0)]) ∧
    (currentTimeOp k (TimeArg.num t0)).2.1 =
      (resolveTimings { k with lastTimerCallback := some t0, clockTime := clampSeek k t0 } (clampSeek k t0) (clampSeek k t0)).1 := by
  refine ⟨?_, ?_, ?_, rfl, rfl⟩
  · have h := (resolveList_state { k with lastTimerCallback := some t0, clockTime := clampSeek k t0 } ({ k with lastTimerCallback := some t0, clockTime := clampSeek k t0 }.channels.map Prod.fst) (clampSeek k t0) (clampSeek k t0)).2.2.2.2.2.1
    simpa [currentTimeOp, resolveTimings] using h
  · have h := (resolveList_state { k with lastTimerCallback := some t0, clockTime := clampSeek k t0 } ({ k with lastTimerCallback := some t0, clockTime := clampSeek k t0 }.channels.map Prod.fst) (clampSeek k t0) (clampSeek k t0)).2.2.2.2.1
    simpa [currentTimeOp, resolveTimings] using h
  · intro hd
    unfold clampSeek
    constructor <;> split <;> (try split) <;> omega

/-- Claim C5 counterexample: seeking to 150 on a 100-long timeline leaves
`lastResolvedTime = 150`, not the clamped 100 the claim requires, while the
events do carry the clamped value. -/
theorem seek_checkpoint_unclamped_cex :
    (currentTimeOp K9 (TimeArg.num 150)).2.1.lastTimerCallback = some 150 ∧
    clampSeek K9 150 = 100 ∧
    (currentTimeOp K9 (TimeArg.num 150)).2.1.lastTimerCallback ≠
      some (clampSeek K9 150) := by
  decide

theorem seek_behavior_witness :
    (currentTimeOp K9 (TimeArg.num 150)).2.1.lastTimerCallback = some 150 ∧
    (0 ≤ clampSeek K9 150 ∧ clampSeek K9 150 ≤ K9.totalDuration) :=
  ⟨(seek_behavior K9 150).1, (seek_behavior K9 150).2.2.1 (by decide)⟩

/-! ### Claim C8 counterexample state -/

/-- Claim C8 counterexample: calling the `totalDuration` method of a
100-long engine with `undefined` returns the stored duration with no error
and no mutation, instead of failing with InvalidDuration as claimed. -/
theorem totalDuration_undefined_is_getter_cex :
    (totalDurationOp K9 DurationArg.undef).2.2 = none ∧
    (totalDurationOp K9 DurationArg.undef).1 = some 100 ∧
    (totalDurationOp K9 DurationArg.undef).2.1 = K9 := by
  decide

/-! ### Claim C3 -/

/-- No declaration of the list carries both `end` and `duration`. -/
def conflictFree : List TimingDecl → Bool
  | [] => true
  | t :: ts => !(t.end_.isSome && t.duration.isSome) && conflictFree ts

theorem addTimingToTree_ok_iff (tree : List NormTiming) (t : TimingDecl) :
    (∃ tree', addTimingToTree tree t = Except.ok tree') ↔
      (t.end_.isSome && t.duration.isSome) = false := by
  cases he : t.end_ <;> cases hd : t.duration <;>
    simp [addTimingToTree, he, hd]

theorem insertTimings_ok_of_free (l : List TimingDecl) :
    ∀ tree, conflictFree l = true → (insertTimings tree l).2 = none := by
  induction l with
  | nil => intro tree _; rfl
  | cons t ts ih =>
      intro tree h
      simp only [conflictFree, Bool.and_eq_true, Bool.not_eq_true'] at h
      obtain ⟨tree', hok⟩ := (addTimingToTree_ok_iff tree t).mpr h.1
      unfold insertTimings
      rw [hok]
      exact ih tree' h.2

theorem insertTimings_fail (bad : TimingDecl) (post : List TimingDecl)
    (hbad : (bad.end_.isSome && bad.duration.isSome) = true) :
    ∀ (pre : List TimingDecl) tree, conflictFree pre = true →
      insertTimings tree (pre ++ bad :: post) =
        ((insertTimings tree pre).1, some KError.conflictingBounds) := by
  intro pre
  induction pre with
  | nil =>
      intro tree _
      have herr : addTimingToTree tree bad = Except.error KError.conflictingBounds := by
        cases he : bad.end_ <;> cases hd : bad.duration <;>
          simp [he, hd] at hbad <;> simp [addTimingToTree, he, hd]
      simp [insertTimings, herr]
  | cons t ts ih =>
      intro tree h
      simp only [conflictFree, Bool.and_eq_true, Bool.not_eq_true'] at h
      obtain ⟨tree', hok⟩ := (addTimingToTree_ok_iff tree t).mpr h.1
      simp only [List.cons_append, insertTimings, hok]
      exact ih tree' h.2

/-- Claim C3 (amended): a ConflictingBounds failure never inserts the
failing timing, and a failing `addTiming` leaves the engine unchanged — but
`addChannel` registers the channel record and its empty active set before
inserting timings, so when a timing in the middle of the list fails, the
channel remains visible holding exactly the successfully inserted prefix of
timings, and the call still reports the error. -/
theorem error_handling_partial_mutation (k : Kinetophone) :
    (∀ tree bad, (bad.end_.isSome && bad.duration.isSome) = true →
      addTimingToTree tree bad = Except.error KError.conflictingBounds) ∧
    (∀ name timing err, (addTiming k name timing).2 = some err →
      (addTiming k name timing).1 = k) ∧
    (∀ cdecl pre bad post,
      lookupA k.channels cdecl.name = none →
      cdecl.timings = some (pre ++ bad :: post) →
      conflictFree pre = true →
      (bad.end_.isSome && bad.duration.isSome) = true →
      addChannel k cdecl =
        ({ k with
            channels := k.channels ++ [(cdecl.name, ⟨cdecl.name, pre ++ bad :: post, (insertTimings [] pre).1⟩)],
            activeTimings := setA k.activeTimings cdecl.name [] },
         some KError.conflictingBounds)) := by
  refine ⟨?_, ?_, ?_⟩
  · intro tree bad hbad
    cases he : bad.end_ <;> cases hd : bad.duration <;>
      simp [he, hd] at hbad <;> simp [addTimingToTree, he, hd]
  · intro name timing err herr
    unfold addTiming at herr ⊢
    cases hl : lookupA k.channels name with
    | none => rfl
    | some ch =>
        simp only [hl] at herr ⊢
        cases hins : addTimingToTree ch.tree timing with
        | error e => rfl
        | ok tree' => simp [hins] at herr
  · intro cdecl pre bad post hfresh htim hpre hbad
    unfold addChannel
    rw [hfresh]
    simp only [Option.isSome_none, Bool.false_eq_true, if_false, htim, Option.getD_some]
    rw [insertTimings_fail bad post hbad pre [] hpre]

/-- The concrete failing `addChannel` of spec scenario D, extended with a
healthy first timing. -/
def D3 : ChannelDecl := ⟨"x", some [⟨0, some 2, none, none⟩, ⟨1, some 4, some 3, none⟩]⟩

def K3 : Kinetophone := (mkKinetophone [] 10 none).1

/-- Claim C3 counterexample: the failing `addChannel` throws
ConflictingBounds, yet the half-built channel is visible afterwards and the
timing inserted before the failure remains in its index. -/
theorem addChannel_partial_mutation_cex :
    (addChannel K3 D3).2 = some KError.conflictingBounds ∧
    lookupA (addChannel K3 D3).1.channels "x" ≠ none ∧
    chanTree (addChannel K3 D3).1 "x" ≠ [] := by
  decide

theorem error_handling_partial_mutation_witness :
    addChannel K3 D3 =
      ({ K3 with
          channels := K3.channels ++ [("x", ⟨"x", [⟨0, some 2, none, none⟩, ⟨1, some 4, some 3, none⟩], (insertTimings [] [⟨0, some 2, none, none⟩]).1⟩)],
          activeTimings := setA K3.activeTimings "x" [] },
       some KError.conflictingBounds) :=
  (error_handling_partial_mutation K3).2.2 D3 [⟨0, some 2, none, none⟩]
    ⟨1, some 4, some 3, none⟩ [] (by decide) (by decide) (by decide) (by decide)

/-! ### Claim C4 -/

/-- One channel as rebuilt by the `totalDuration` setter: same name, same
stored declaration list, a fresh index inserted from that list alone. -/
def rebuiltChannel (ch : Channel) : Channel :=
  ⟨ch.name, ch.timings, (insertTimings [] ch.timings).1⟩

theorem addChannel_ok_eq (k : Kinetophone) (cdecl : ChannelDecl)
    (h1 : lookupA k.channels cdecl.name = none) :
    addChannel k cdecl =
      ({ k with
          channels := k.channels ++ [(cdecl.name, ⟨cdecl.name, cdecl.timings.getD [], (insertTimings [] (cdecl.timings.getD [])).1⟩)],
          activeTimings := setA k.activeTimings cdecl.name [] },
       (insertTimings [] (cdecl.timings.getD [])).2) := by
  unfold addChannel
  rw [h1]
  rfl

theorem removeA_head {α : Type} (n : String) (v : α) (l : List (String × α))
    (h : n ∉ l.map Prod.fst) : removeA ((n, v) :: l) n = l := by
  unfold removeA
  rw [List.filter_cons_of_neg]
  · apply List.filter_eq_self.mpr
    intro p hp
    simp only [decide_eq_true_eq]
    intro hh
    apply h
    rw [← hh]
    exact List.mem_map_of_mem Prod.fst hp
  · simp

theorem nodup_rotate_head {α : Type} (n : α) (l : List α)
    (h : (n :: l).Nodup) : (l ++ [n]).Nodup := by
  have hperm : (n :: l).Perm (l ++ [n]) := by
    simpa using (List.perm_append_comm : ([n] ++ l).Perm (l ++ [n]))
  exact hperm.nodup h

theorem rebuildChannels_ok (pending : List (String × Channel)) :
    ∀ (done : List (String × Channel)) (k : Kinetophone),
      k.channels = pending ++ done →
      ((pending ++ done).map Prod.fst).Nodup →
      (∀ p ∈ pending, p.2.name = p.1) →
      (∀ p ∈ pending, conflictFree p.2.timings = true) →
      rebuildChannels k (pending.map Prod.fst) =
        ({ k with
            channels := done ++ pending.map (fun p => (p.1, rebuiltChannel p.2)),
            activeTimings := pending.foldl (fun a p => setA a p.1 []) k.activeTimings },
         none) := by
  induction pending with
  | nil =>
      intro done k hch hnd hn hc
      simp only [List.map_nil, rebuildChannels, List.append_nil, List.foldl_nil]
      simp only [List.nil_append] at hch
      rw [← hch]
  | cons p rest ih =>
      obtain ⟨n, ch⟩ := p
      intro done k hch hnd hn hc
      have hname : ch.name = n := hn (n, ch) (List.mem_cons_self _ _)
      subst hname
      have hcons : ((((ch.name, ch) :: rest) ++ done).map Prod.fst) =
          ch.name :: ((rest ++ done).map Prod.fst) := by simp
      rw [hcons] at hnd
      have hkeys : ch.name ∉ ((rest ++ done).map Prod.fst) := (List.nodup_cons.mp hnd).1
      have hlook : lookupA k.channels ch.name = some ch := by
        rw [hch]
        simp [lookupA]
      have hrem : removeA k.channels ch.name = rest ++ done := by
        rw [hch]
        exact removeA_head ch.name ch (rest ++ done) hkeys
      have hfresh : lookupA (rest ++ done) ch.name = none :=
        lookupA_eq_none_of_not_mem _ _ hkeys
      have hfree : conflictFree ch.timings = true :=
        hc (ch.name, ch) (List.mem_cons_self _ _)
      have haddeq := addChannel_ok_eq { k with channels := removeA k.channels ch.name }
        (⟨ch.name, some ch.timings⟩ : ChannelDecl)
        (by
          show lookupA (removeA k.channels ch.name) ch.name = none
          rw [hrem]
          exact hfresh)
      have herr : (insertTimings [] ch.timings).2 = none :=
        insertTimings_ok_of_free ch.timings [] hfree
      simp only [List.map_cons, rebuildChannels, hlook, haddeq, Option.getD_some, herr]
      rw [hrem]
      have hstep := ih (done ++ [(ch.name, rebuiltChannel ch)])
        { k with
            channels := (rest ++ done) ++ [(ch.name, ⟨ch.name, ch.timings, (insertTimings [] ch.timings).1⟩)],
            activeTimings := setA k.activeTimings ch.name [] }
        (by simp [rebuiltChannel, List.append_assoc])
        (by
          have h2 := nodup_rotate_head ch.name ((rest ++ done).map Prod.fst) hnd
          simpa [rebuiltChannel, List.append_assoc] using h2)
        (fun p hp => hn p (List.mem_cons_of_mem _ hp))
        (fun p hp => hc p (List.mem_cons_of_mem _ hp))
      rw [hstep]
      simp [rebuiltChannel, List.append_assoc]

/-- Claim C4 (amended): reassigning `totalDuration` rebuilds every channel
from its stored construction-time declaration list alone: every channel
keeps its name and `timings` list, its index becomes a fresh insertion of
exactly that list, and its active set is reset to empty.  Timings added
after construction through `addTiming` are inserted into the index but never
recorded in `timings`, so the rebuild drops them (see the counterexample). -/
theorem totalDuration_rebuild (k : Kinetophone) (d : Int)
    (hnd : (k.channels.map Prod.fst).Nodup)
    (hn : ∀ p ∈ k.channels, p.2.name = p.1)
    (hc : ∀ p ∈ k.channels, conflictFree p.2.timings = true) :
    totalDurationOp k (DurationArg.num d) =
      (none,
       { k with
          totalDuration := d,
          channels := k.channels.map (fun p => (p.1, rebuiltChannel p.2)),
          activeTimings := k.channels.foldl (fun a p => setA a p.1 []) k.activeTimings },
       none) := by
  unfold totalDurationOp
  have hstep := rebuildChannels_ok k.channels [] { k with totalDuration := d }
    (by simp) (by simpa using hnd) hn hc
  simp [hstep]

/-- An engine whose only channel was declared empty and then extended via
`addTiming` with `{start: 2, duration: 3}` (normalized to `(2, 5)`). -/
def K4 : Kinetophone := (mkKinetophone [⟨"c", some []⟩] 10 none).1

def K4a : Kinetophone := (addTiming K4 "c" ⟨2, none, some 3, none⟩).1

def K4b : Kinetophone := (totalDurationOp K4a (DurationArg.num 20)).2.1

/-- Claim C4 counterexample: before the rebuild, `getTimingsAt 3` finds the
timing added via `addTiming`; after reassigning `totalDuration` the rebuilt
channel no longer contains it at any time of its interval `[2, 5)`. -/
theorem rebuild_drops_addTiming_cex :
    getTimingsAtChannel K4a 3 "c" ≠ [] ∧
    getTimingsAtChannel K4b 3 "c" = [] ∧
    getTimingsAtChannel K4b 2 "c" = [] ∧
    getTimingsAtChannel K4b 4 "c" = [] ∧
    K4b.totalDuration = 20 := by
  decide

theorem totalDuration_rebuild_witness :
    totalDurationOp K4a (DurationArg.num 20) =
      (none,
       { K4a with
          totalDuration := 20,
          channels := K4a.channels.map (fun p => (p.1, rebuiltChannel p.2)),
          activeTimings := K4a.channels.foldl (fun a p => setA a p.1 []) K4a.activeTimings },
       none) :=
  totalDuration_rebuild K4a 20 (by decide) (by decide) (by decide)

/-! ### Claim C10 -/

theorem mem_getTimingsAt_filter (tree : List NormTiming) (t : Int) (x : NormTiming) :
    (x ∈ (treeSearchPoint tree t).filter
      (fun y => decide (t ≥ y.start) && decide (t < y.end_))) ↔
      (x ∈ tree ∧ (x.start ≤ t ∧ t < x.end_)) := by
  simp only [treeSearchPoint, List.mem_filter, Bool.and_eq_true, decide_eq_true_eq]
  constructor
  · rintro ⟨⟨h1, h2, h3⟩, h4, h5⟩
    exact ⟨h1, h2, h5⟩
  · rintro ⟨h1, h2, h3⟩
    exact ⟨⟨h1, h2, by omega⟩, by omega, h3⟩

/-- Claim C10 (amended): immediately after `seek(t)`, each channel's active
set equals — as a multiset of public projections — `getTimingsAt` at the
clamped seek time.  For a raw `t` outside `[0, totalDuration]` the equality
against `getTimingsAt(t)` itself fails, because the resolution runs at the
clamped time while the query runs at the raw one (see the counterexample). -/
theorem seek_matches_getTimingsAt (k : Kinetophone) (t0 : Int) (c : String)
    (hnd : (k.channels.map Prod.fst).Nodup)
    (hc : c ∈ k.channels.map Prod.fst)
    (hact : (chanActive k c).Nodup)
    (htree : (chanTree k c).Nodup)
    (hsub : ∀ y ∈ chanActive k c, y ∈ chanTree k c) :
    ((chanActive (currentTimeOp k (TimeArg.num t0)).2.1 c).map (timingFromRawData c)).Perm
      (getTimingsAtChannel (currentTimeOp k (TimeArg.num t0)).2.1 (clampSeek k t0) c) := by
  have hstate_active : chanActive (currentTimeOp k (TimeArg.num t0)).2.1 c =
      newActiveOf (chanActive k c) (chanTree k c) (clampSeek k t0) (clampSeek k t0) := by
    unfold currentTimeOp
    simp only [resolveTimings]
    exact resolveList_active_mem _ _ _ _ _ hnd hc
  have hstate_tree : chanTree (currentTimeOp k (TimeArg.num t0)).2.1 c = chanTree k c := by
    unfold currentTimeOp
    simp only [resolveTimings]
    exact resolveList_chanTree _ _ _ _ _
  have hperm : (newActiveOf (chanActive k c) (chanTree k c) (clampSeek k t0) (clampSeek k t0)).Perm
      ((treeSearchPoint (chanTree k c) (clampSeek k t0)).filter
        (fun y => decide (clampSeek k t0 ≥ y.start) && decide (clampSeek k t0 < y.end_))) := by
    rw [List.perm_ext_iff_of_nodup (newActiveOf_nodup _ _ _ _ hact)
      (List.Nodup.filter _ (by simpa [treeSearchPoint] using htree.filter _))]
    intro x
    rw [mem_newActiveOf_of_sub _ _ _ _ _ le_rfl hsub, mem_getTimingsAt_filter]
  rw [hstate_active]
  unfold getTimingsAtChannel
  rw [hstate_tree]
  exact hperm.map _

def K10 : Kinetophone :=
  (mkKinetophone [⟨"c", some [⟨0, some 3, none, none⟩]⟩] 10 none).1

def K10a : Kinetophone := (currentTimeOp K10 (TimeArg.num (-5))).2.1

/-- Claim C10 counterexample: after `seek(-5)` the clamped resolution at 0
activates the timing `(0, 3)`, but `getTimingsAt(-5)` — at the raw seek
argument — returns nothing, so the active set does not equal
`getTimingsAt(t)` for the seek argument `t` itself. -/
theorem seek_active_vs_raw_query_cex :
    (chanActive K10a "c").map (timingFromRawData "c") ≠ [] ∧
    getTimingsAtChannel K10a (-5) "c" = [] := by
  decide

theorem seek_matches_getTimingsAt_witness :
    ((chanActive (currentTimeOp K10 (TimeArg.num (-5))).2.1 "c").map (timingFromRawData "c")).Perm
      (getTimingsAtChannel (currentTimeOp K10 (TimeArg.num (-5))).2.1 (clampSeek K10 (-5)) "c") :=
  seek_matches_getTimingsAt K10 (-5) "c" (by decide) (by decide) (by decide)
    (by decide) (by decide)

/-! ### Claim C1: the tick checkpoint dynamics and event counts -/

/-- The subsequence of tick times the tick controller actually processes,
replaying only the checkpoint logic of `_timerCallback` (first observation,
then only ticks at least `res` beyond the checkpoint). -/
def processedTimes (res : Int) : Option Int → List Int → List Int
  | _, [] => []
  | none, t :: ts => t :: processedTimes res (some t) ts
  | some l, t :: ts =>
      if t - l ≥ res then t :: processedTimes res (some t) ts
      else processedTimes res (some l) ts

/-- Enter/exit transition counts of one timing `[s, e)` along a sequence of
resolution times, starting from activity state `m`: a resolution at `t`
makes the timing active exactly when `s ≤ t < e`, an inactive→active flip
counts one enter, an active→inactive flip counts one exit. -/
def enterExitCounts (s e : Int) : Bool → List Int → Nat × Nat
  | _, [] => (0, 0)
  | m, t :: ts =>
      let w := decide (s ≤ t) && decide (t < e)
      let rest := enterExitCounts s e w ts
      ((if w && !m then 1 else 0) + rest.1, (if m && !w then 1 else 0) + rest.2)

theorem rolloverPhase_noop (k : Kinetophone) (t : Int) (h : ¬(t > k.totalDuration)) :
    rolloverPhase k t = (k, []) := by
  unfold rolloverPhase
  rw [if_neg h]

theorem tickResolvePhase_fields (k : Kinetophone) (t : Int) :
    (tickResolvePhase k t).1.channels = k.channels ∧
    (tickResolvePhase k t).1.totalDuration = k.totalDuration ∧
    (tickResolvePhase k t).1.tickResolution = k.tickResolution ∧
    (tickResolvePhase k t).1.clockTime = k.clockTime ∧
    (tickResolvePhase k t).1.playing = k.playing ∧
    (tickResolvePhase k t).1.clockRunning = k.clockRunning := by
  unfold tickResolvePhase
  cases hl : k.lastTimerCallback with
  | none =>
      simp only [resolveTimings]
      exact ⟨(resolveList_state _ _ _ _).1, (resolveList_state _ _ _ _).2.1,
        (resolveList_state _ _ _ _).2.2.2.2.2.2.1,
        (resolveList_state _ _ _ _).2.2.2.2.1,
        (resolveList_state _ _ _ _).2.2.1,
        (resolveList_state _ _ _ _).2.2.2.1⟩
  | some l =>
      by_cases hres : t - l ≥ k.tickResolution
      · simp only [if_pos hres, resolveTimings]
        exact ⟨(resolveList_state _ _ _ _).1, (resolveList_state _ _ _ _).2.1,
          (resolveList_state _ _ _ _).2.2.2.2.2.2.1,
          (resolveList_state _ _ _ _).2.2.2.2.1,
          (resolveList_state _ _ _ _).2.2.1,
          (resolveList_state _ _ _ _).2.2.2.1⟩
      · simp only [if_neg hres]
        simp

theorem timerCallback_decompose (k : Kinetophone) (t : Int)
    (hdur : t ≤ k.totalDuration) :
    timerCallback k t = tickResolvePhase { k with clockTime := t } t := by
  unfold timerCallback
  simp only []
  have h1 : (tickResolvePhase { k with clockTime := t } t).1.totalDuration =
      k.totalDuration := (tickResolvePhase_fields _ _).2.1
  rw [rolloverPhase_noop _ _ (by rw [h1]; omega)]
  simp

theorem tickResolvePhase_last_none (k : Kinetophone) (t : Int)
    (hl : k.lastTimerCallback = none) :
    (tickResolvePhase k t).1.lastTimerCallback = some t := by
  unfold tickResolvePhase
  rw [hl]
  simp only [resolveTimings]
  exact (resolveList_state _ _ _ _).2.2.2.2.2.1

theorem tickResolvePhase_last_proc (k : Kinetophone) (t l : Int)
    (hl : k.lastTimerCallback = some l) (hres : t - l ≥ k.tickResolution) :
    (tickResolvePhase k t).1.lastTimerCallback = some t := by
  unfold tickResolvePhase
  rw [hl]
  simp only [if_pos hres]

theorem tickResolvePhase_skip (k : Kinetophone) (t l : Int)
    (hl : k.lastTimerCallback = some l) (hres : ¬(t - l ≥ k.tickResolution)) :
    tickResolvePhase k t = (k, []) := by
  unfold tickResolvePhase
  rw [hl]
  simp only [if_neg hres]

theorem tickResolvePhase_active_none (k : Kinetophone) (t : Int) (c : String)
    (hl : k.lastTimerCallback = none)
    (hnd : (k.channels.map Prod.fst).Nodup) (hc : c ∈ k.channels.map Prod.fst) :
    chanActive (tickResolvePhase k t).1 c =
      newActiveOf (chanActive k c) (chanTree k c) 0 t := by
  unfold tickResolvePhase
  rw [hl]
  simp only [resolveTimings]
  exact resolveList_active_mem _ _ _ _ _ hnd hc

theorem tickResolvePhase_active_proc (k : Kinetophone) (t l : Int) (c : String)
    (hl : k.lastTimerCallback = some l) (hres : t - l ≥ k.tickResolution)
    (hnd : (k.channels.map Prod.fst).Nodup) (hc : c ∈ k.channels.map Prod.fst) :
    chanActive (tickResolvePhase k t).1 c =
      newActiveOf (chanActive k c) (chanTree k c) (l + 1) t := by
  unfold tickResolvePhase
  rw [hl]
  simp only [if_pos hres, resolveTimings]
  have h := resolveList_active_mem k (k.channels.map Prod.fst) (l + 1) t c hnd hc
  simpa [chanActive] using h

theorem tickResolvePhase_count_enter_none (k : Kinetophone) (t : Int)
    (c : String) (p : Projection) (hl : k.lastTimerCallback = none)
    (hnd : (k.channels.map Prod.fst).Nodup) (hc : c ∈ k.channels.map Prod.fst) :
    countE (Event.enter c p) (tickResolvePhase k t).2 =
      countE (Event.enter c p) (resolveEventsOf c (chanActive k c) (chanTree k c) 0 t) := by
  unfold tickResolvePhase
  rw [hl]
  simp only [resolveTimings, countE]
  have h := resolveList_countE_enter { k with lastTimerCallback := some t }
    (k.channels.map Prod.fst) 0 t c p hnd hc
  simpa using h

theorem tickResolvePhase_count_enter_proc (k : Kinetophone) (t l : Int)
    (c : String) (p : Projection) (hl : k.lastTimerCallback = some l)
    (hres : t - l ≥ k.tickResolution)
    (hnd : (k.channels.map Prod.fst).Nodup) (hc : c ∈ k.channels.map Prod.fst) :
    countE (Event.enter c p) (tickResolvePhase k t).2 =
      countE (Event.enter c p) (resolveEventsOf c (chanActive k c) (chanTree k c) (l + 1) t) := by
  unfold tickResolvePhase
  rw [hl]
  simp only [if_pos hres, resolveTimings, countE]
  have h := resolveList_countE_enter k (k.channels.map Prod.fst) (l + 1) t c p hnd hc
  simpa using h

theorem tickResolvePhase_count_exit_none (k : Kinetophone) (t : Int)
    (c : String) (p : Projection) (hl : k.lastTimerCallback = none)
    (hnd : (k.channels.map Prod.fst).Nodup) (hc : c ∈ k.channels.map Prod.fst) :
    countE (Event.exit c p) (tickResolvePhase k t).2 =
      countE (Event.exit c p) (resolveEventsOf c (chanActive k c) (chanTree k c) 0 t) := by
  unfold tickResolvePhase
  rw [hl]
  simp only [resolveTimings, countE]
  have h := resolveList_countE_exit { k with lastTimerCallback := some t }
    (k.channels.map Prod.fst) 0 t c p hnd hc
  simpa using h

theorem tickResolvePhase_count_exit_proc (k : Kinetophone) (t l : Int)
    (c : String) (p : Projection) (hl : k.lastTimerCallback = some l)
    (hres : t - l ≥ k.tickResolution)
    (hnd : (k.channels.map Prod.fst).Nodup) (hc : c ∈ k.channels.map Prod.fst) :
    countE (Event.exit c p) (tickResolvePhase k t).2 =
      countE (Event.exit c p) (resolveEventsOf c (chanActive k c) (chanTree k c) (l + 1) t) := by
  unfold tickResolvePhase
  rw [hl]
  simp only [if_pos hres, resolveTimings, countE]
  have h := resolveList_countE_exit k (k.channels.map Prod.fst) (l + 1) t c p hnd hc
  simpa using h

theorem count_shape_enter (P Q1 Q2 : Prop) [Decidable P] [Decidable Q1] [Decidable Q2] :
    (if ¬P ∧ (Q1 ∧ Q2) then (1 : Nat) else 0) =
      (if ((decide Q1 && decide Q2) && !(decide P)) = true then 1 else 0) := by
  by_cases hp : P <;> by_cases h1 : Q1 <;> by_cases h2 : Q2 <;> simp [hp, h1, h2]

theorem count_shape_exit (P Q1 Q2 : Prop) [Decidable P] [Decidable Q1] [Decidable Q2] :
    (if P ∧ ¬(Q1 ∧ Q2) then (1 : Nat) else 0) =
      (if (decide P && !(decide Q1 && decide Q2)) = true then 1 else 0) := by
  by_cases hp : P <;> by_cases h1 : Q1 <;> by_cases h2 : Q2 <;> simp [hp, h1, h2]

theorem run_counts (ticks : List Int) :
    ∀ (k : Kinetophone) (c : String) (x : NormTiming),
      (k.channels.map Prod.fst).Nodup →
      c ∈ k.channels.map Prod.fst →
      x ∈ chanTree k c →
      (chanTree k c).Nodup →
      (∀ y ∈ chanTree k c, timingFromRawData c y = timingFromRawData c x → y = x) →
      (∀ y ∈ chanTree k c, exitProjection c y = exitProjection c x → y = x) →
      (chanActive k c).Nodup →
      (∀ y ∈ chanActive k c, y ∈ chanTree k c) →
      0 < k.tickResolution →
      (∀ t ∈ ticks, 0 ≤ t) →
      (∀ t ∈ ticks, t ≤ k.totalDuration) →
      countE (Event.enter c (timingFromRawData c x)) ((run k ticks).2) =
        (enterExitCounts x.start x.end_ (decide (x ∈ chanActive k c))
          (processedTimes k.tickResolution k.lastTimerCallback ticks)).1 ∧
      countE (Event.exit c (exitProjection c x)) ((run k ticks).2) =
        (enterExitCounts x.start x.end_ (decide (x ∈ chanActive k c))
          (processedTimes k.tickResolution k.lastTimerCallback ticks)).2 := by
  induction ticks with
  | nil =>
      intro k c x _ _ _ _ _ _ _ _ _ _ _
      cases k.lastTimerCallback <;>
        simp [run, processedTimes, enterExitCounts, countE]
  | cons t ts ih =>
      intro k c x hnd hc hx htree huniq huniqE hact hsub hres h0 hD
      have ht0 : 0 ≤ t := h0 t (List.mem_cons_self _ _)
      have htD : t ≤ k.totalDuration := hD t (List.mem_cons_self _ _)
      have h0' : ∀ t' ∈ ts, 0 ≤ t' := fun t' ht' => h0 t' (List.mem_cons_of_mem _ ht')
      have hD' : ∀ t' ∈ ts, t' ≤ k.totalDuration := fun t' ht' => hD t' (List.mem_cons_of_mem _ ht')
      have hdec := timerCallback_decompose k t htD
      have hrun : run k (t :: ts) =
          ((run (tickResolvePhase { k with clockTime := t } t).1 ts).1,
           (tickResolvePhase { k with clockTime := t } t).2 ++
             (run (tickResolvePhase { k with clockTime := t } t).1 ts).2) := by
        simp only [run, hdec]
      have hfields := tickResolvePhase_fields { k with clockTime := t } t
      have hch : (tickResolvePhase { k with clockTime := t } t).1.channels = k.channels := hfields.1
      have hdur2 : (tickResolvePhase { k with clockTime := t } t).1.totalDuration = k.totalDuration := hfields.2.1
      have hres2 : (tickResolvePhase { k with clockTime := t } t).1.tickResolution = k.tickResolution := hfields.2.2.1
      have htreeEq : chanTree (tickResolvePhase { k with clockTime := t } t).1 c = chanTree k c :=
        chanTree_congr _ _ _ hch
      cases hl : k.lastTimerCallback with
      | none =>
          have hl' : ({ k with clockTime := t } : Kinetophone).lastTimerCallback = none := hl
          have hactive2 : chanActive (tickResolvePhase { k with clockTime := t } t).1 c =
              newActiveOf (chanActive k c) (chanTree k c) 0 t :=
            tickResolvePhase_active_none { k with clockTime := t } t c hl' hnd hc
          have hlast2 : (tickResolvePhase { k with clockTime := t } t).1.lastTimerCallback = some t :=
            tickResolvePhase_last_none { k with clockTime := t } t hl'
          have hmem : x ∈ chanActive (tickResolvePhase { k with clockTime := t } t).1 c ↔
              (x.start ≤ t ∧ t < x.end_) := by
            rw [hactive2, mem_newActiveOf_of_sub _ _ _ _ _ ht0 hsub]
            exact ⟨fun h => h.2, fun h => ⟨hx, h⟩⟩
          have hihyps := ih (tickResolvePhase { k with clockTime := t } t).1 c x
            (by rw [hch]; exact hnd) (by rw [hch]; exact hc)
            (by rw [htreeEq]; exact hx) (by rw [htreeEq]; exact htree)
            (by rw [htreeEq]; exact huniq) (by rw [htreeEq]; exact huniqE)
            (by rw [hactive2]; exact newActiveOf_nodup _ _ _ _ hact)
            (by
              rw [hactive2, htreeEq]
              exact newActiveOf_sub _ _ _ _ hsub)
            (by rw [hres2]; exact hres)
            h0' (by rw [hdur2]; exact hD')
          have hcnt_en : countE (Event.enter c (timingFromRawData c x))
              (tickResolvePhase { k with clockTime := t } t).2 =
              countE (Event.enter c (timingFromRawData c x))
                (resolveEventsOf c (chanActive k c) (chanTree k c) 0 t) :=
            tickResolvePhase_count_enter_none { k with clockTime := t } t c
              (timingFromRawData c x) hl' hnd hc
          have hcnt_ex : countE (Event.exit c (exitProjection c x))
              (tickResolvePhase { k with clockTime := t } t).2 =
              countE (Event.exit c (exitProjection c x))
                (resolveEventsOf c (chanActive k c) (chanTree k c) 0 t) :=
            tickResolvePhase_count_exit_none { k with clockTime := t } t c
              (exitProjection c x) hl' hnd hc
          have hval_en := countE_enter_resolveEventsOf c (chanActive k c) (chanTree k c) 0 t x
            hact hx ht0 huniq
          have hval_ex := countE_exit_resolveEventsOf c (chanActive k c) (chanTree k c) 0 t x
            hact hsub huniqE
          have hw : decide (x ∈ chanActive (tickResolvePhase { k with clockTime := t } t).1 c) =
              (decide (x.start ≤ t) && decide (t < x.end_)) := by
            by_cases hwin : x.start ≤ t ∧ t < x.end_
            · simp [hmem.mpr hwin, hwin.1, hwin.2]
            · have : ¬(x ∈ chanActive (tickResolvePhase { k with clockTime := t } t).1 c) :=
                fun hh => hwin (hmem.mp hh)
              rcases Decidable.not_and_iff_or_not.mp hwin with h1 | h1 <;> simp [this, h1]
          rw [hrun]
          have hpt : processedTimes k.tickResolution k.lastTimerCallback (t :: ts) =
              t :: processedTimes k.tickResolution (some t) ts := by
            rw [hl]
            rfl
          simp only [countE_append, hpt, enterExitCounts]
          constructor
          · rw [hcnt_en, hval_en, hihyps.1, hres2, hlast2, hw]
            rw [count_shape_enter (x ∈ chanActive k c) (x.start ≤ t) (t < x.end_)]
          · rw [hcnt_ex, hval_ex, hihyps.2, hres2, hlast2, hw]
            rw [count_shape_exit (x ∈ chanActive k c) (x.start ≤ t) (t < x.end_)]
      | some l =>
          by_cases hproc : t - l ≥ k.tickResolution
          · have hl' : ({ k with clockTime := t } : Kinetophone).lastTimerCallback = some l := hl
            have hproc' : t - l ≥ ({ k with clockTime := t } : Kinetophone).tickResolution := hproc
            have ha : l + 1 ≤ t := by omega
            have hactive2 : chanActive (tickResolvePhase { k with clockTime := t } t).1 c =
                newActiveOf (chanActive k c) (chanTree k c) (l + 1) t :=
              tickResolvePhase_active_proc { k with clockTime := t } t l c hl' hproc' hnd hc
            have hlast2 : (tickResolvePhase { k with clockTime := t } t).1.lastTimerCallback = some t :=
              tickResolvePhase_last_proc { k with clockTime := t } t l hl' hproc'
            have hmem : x ∈ chanActive (tickResolvePhase { k with clockTime := t } t).1 c ↔
                (x.start ≤ t ∧ t < x.end_) := by
              rw [hactive2, mem_newActiveOf_of_sub _ _ _ _ _ ha hsub]
              exact ⟨fun h => h.2, fun h => ⟨hx, h⟩⟩
            have hihyps := ih (tickResolvePhase { k with clockTime := t } t).1 c x
              (by rw [hch]; exact hnd) (by rw [hch]; exact hc)
              (by rw [htreeEq]; exact hx) (by rw [htreeEq]; exact htree)
              (by rw [htreeEq]; exact huniq) (by rw [htreeEq]; exact huniqE)
              (by rw [hactive2]; exact newActiveOf_nodup _ _ _ _ hact)
              (by
                rw [hactive2, htreeEq]
                exact newActiveOf_sub _ _ _ _ hsub)
              (by rw [hres2]; exact hres)
              h0' (by rw [hdur2]; exact hD')
            have hcnt_en : countE (Event.enter c (timingFromRawData c x))
                (tickResolvePhase { k with clockTime := t } t).2 =
                countE (Event.enter c (timingFromRawData c x))
                  (resolveEventsOf c (chanActive k c) (chanTree k c) (l + 1) t) :=
              tickResolvePhase_count_enter_proc { k with clockTime := t } t l c
                (timingFromRawData c x) hl' hproc' hnd hc
            have hcnt_ex : countE (Event.exit c (exitProjection c x))
                (tickResolvePhase { k with clockTime := t } t).2 =
                countE (Event.exit c (exitProjection c x))
                  (resolveEventsOf c (chanActive k c) (chanTree k c) (l + 1) t) :=
              tickResolvePhase_count_exit_proc { k with clockTime := t } t l c
                (exitProjection c x) hl' hproc' hnd hc
            have hval_en := countE_enter_resolveEventsOf c (chanActive k c) (chanTree k c) (l + 1) t x
              hact hx ha huniq
            have hval_ex := countE_exit_resolveEventsOf c (chanActive k c) (chanTree k c) (l + 1) t x
              hact hsub huniqE
            have hw : decide (x ∈ chanActive (tickResolvePhase { k with clockTime := t } t).1 c) =
                (decide (x.start ≤ t) && decide (t < x.end_)) := by
              by_cases hwin : x.start ≤ t ∧ t < x.end_
              · simp [hmem.mpr hwin, hwin.1, hwin.2]
              · have : ¬(x ∈ chanActive (tickResolvePhase { k with clockTime := t } t).1 c) :=
                  fun hh => hwin (hmem.mp hh)
                rcases Decidable.not_and_iff_or_not.mp hwin with h1 | h1 <;> simp [this, h1]
            rw [hrun]
            have hpt : processedTimes k.tickResolution (some l) (t :: ts) =
                t :: processedTimes k.tickResolution (some t) ts := by
              simp only [processedTimes]
              rw [if_pos hproc]
            simp only [countE_append, hpt, enterExitCounts]
            constructor
            · rw [hcnt_en, hval_en, hihyps.1, hres2, hlast2, hw]
              rw [count_shape_enter (x ∈ chanActive k c) (x.start ≤ t) (t < x.end_)]
            · rw [hcnt_ex, hval_ex, hihyps.2, hres2, hlast2, hw]
              rw [count_shape_exit (x ∈ chanActive k c) (x.start ≤ t) (t < x.end_)]
          · have hl' : ({ k with clockTime := t } : Kinetophone).lastTimerCallback = some l := hl
            have hproc' : ¬(t - l ≥ ({ k with clockTime := t } : Kinetophone).tickResolution) := hproc
            have hskip := tickResolvePhase_skip { k with clockTime := t } t l hl' hproc'
            have hihyps := ih ({ k with clockTime := t } : Kinetophone) c x
              hnd hc hx htree huniq huniqE hact hsub hres h0' hD'
            rw [hrun]
            have hpt : processedTimes k.tickResolution (some l) (t :: ts) =
                processedTimes k.tickResolution (some l) ts := by
              simp only [processedTimes]
              rw [if_neg hproc]
            simp only [hskip, countE_append, hpt]
            constructor
            · rw [hihyps.1]
              simp [countE, hl, chanActive]
            · rw [hihyps.2]
              simp [countE, hl, chanActive]

theorem enterExitCounts_all_out (s e : Int) (pts : List Int)
    (h : ∀ t ∈ pts, ¬(s ≤ t ∧ t < e)) :
    enterExitCounts s e false pts = (0, 0) := by
  induction pts with
  | nil => rfl
  | cons t ts ih =>
      have hw : (decide (s ≤ t) && decide (t < e)) = false := by
        rcases Decidable.not_and_iff_or_not.mp (h t (List.mem_cons_self _ _)) with h1 | h1 <;>
          simp [h1]
      simp [enterExitCounts, hw, ih (fun t' ht' => h t' (List.mem_cons_of_mem _ ht'))]

theorem enterExitCounts_from_active (s e : Int) (pts : List Int)
    (hmono : pts.Pairwise (· ≤ ·)) (hge : ∀ t ∈ pts, s ≤ t) :
    enterExitCounts s e true pts =
      (0, if pts.any (fun t => decide (e ≤ t)) then 1 else 0) := by
  induction pts with
  | nil => simp [enterExitCounts]
  | cons t ts ih =>
      have hst : s ≤ t := hge t (List.mem_cons_self _ _)
      rcases List.pairwise_cons.mp hmono with ⟨hhead, htail⟩
      by_cases hw : t < e
      · have hwb : (decide (s ≤ t) && decide (t < e)) = true := by simp [hst, hw]
        have ihh := ih htail (fun t' ht' => hge t' (List.mem_cons_of_mem _ ht'))
        simp [enterExitCounts, hwb, ihh, show ¬(e ≤ t) by omega]
      · have hwb : (decide (s ≤ t) && decide (t < e)) = false := by simp [hw]
        have hall : ∀ t' ∈ ts, ¬(s ≤ t' ∧ t' < e) := by
          intro t' ht'
          have := hhead t' ht'
          omega
        simp [enterExitCounts, hwb, enterExitCounts_all_out s e ts hall,
          show e ≤ t by omega]

theorem enterExitCounts_closed (s e : Int) (pts : List Int)
    (hmono : pts.Pairwise (· ≤ ·)) :
    enterExitCounts s e false pts =
      ((if pts.any (fun t => decide (s ≤ t) && decide (t < e)) then 1 else 0),
       (if (pts.any (fun t => decide (s ≤ t) && decide (t < e)) &&
            pts.any (fun t => decide (e ≤ t))) then 1 else 0)) := by
  induction pts with
  | nil => simp [enterExitCounts]
  | cons t ts ih =>
      rcases List.pairwise_cons.mp hmono with ⟨hhead, htail⟩
      by_cases hw : s ≤ t ∧ t < e
      · have hwb : (decide (s ≤ t) && decide (t < e)) = true := by simp [hw.1, hw.2]
        have hge : ∀ t' ∈ ts, s ≤ t' := fun t' ht' => le_trans hw.1 (hhead t' ht')
        have hactv := enterExitCounts_from_active s e ts htail hge
        simp [enterExitCounts, hwb, hactv, show ¬(e ≤ t) by omega]
      · have hwb : (decide (s ≤ t) && decide (t < e)) = false := by
          rcases Decidable.not_and_iff_or_not.mp hw with h1 | h1 <;> simp [h1]
        have ihh := ih htail
        by_cases het : e ≤ t
        · have hnone : ts.any (fun t' => decide (s ≤ t') && decide (t' < e)) = false := by
            rw [List.any_eq_false]
            intro t' ht'
            have h1 := hhead t' ht'
            simp only [Bool.and_eq_true, decide_eq_true_eq, not_and]
            intro _
            omega
          simp [enterExitCounts, hwb, ihh, hnone, het]
        · simp [enterExitCounts, hwb, ihh, het]

theorem processedTimes_sublist (res : Int) (ticks : List Int) :
    ∀ lo, (processedTimes res lo ticks).Sublist ticks := by
  induction ticks with
  | nil => intro lo; cases lo <;> simp [processedTimes]
  | cons t ts ih =>
      intro lo
      cases lo with
      | none =>
          simp only [processedTimes]
          exact (ih (some t)).cons₂ t
      | some l =>
          simp only [processedTimes]
          by_cases h : t - l ≥ res
          · rw [if_pos h]
            exact (ih (some t)).cons₂ t
          · rw [if_neg h]
            exact (ih (some l)).cons t

/-- Claim C1 (amended): fix a normalized timing `(s, e)` of channel `c` in
an engine that has not yet observed a tick and whose channel `c` is idle.
For any monotone sequence of nonnegative tick times bounded by the total
duration, exactly one `enter` for the timing fires when some processed
resolution time (the tick subsequence surviving the `tickResolution`
batching) first lands inside `[s, e)`, and none otherwise; and exactly one
`exit` fires when, additionally, a later processed resolution time reaches
`e` or beyond, and none otherwise.  In particular a timing whose whole
interval falls strictly between two consecutive processed resolution times
— the batched-jump situation of the original claim — fires neither event,
which refutes the claim as stated (see the counterexample). -/
theorem enter_exit_once_per_crossing (k : Kinetophone) (c : String) (x : NormTiming)
    (ticks : List Int)
    (hnd : (k.channels.map Prod.fst).Nodup)
    (hc : c ∈ k.channels.map Prod.fst)
    (hx : x ∈ chanTree k c)
    (htree : (chanTree k c).Nodup)
    (huniq : ∀ y ∈ chanTree k c, timingFromRawData c y = timingFromRawData c x → y = x)
    (huniqE : ∀ y ∈ chanTree k c, exitProjection c y = exitProjection c x → y = x)
    (hact : chanActive k c = [])
    (hlast : k.lastTimerCallback = none)
    (hres : 0 < k.tickResolution)
    (h0 : ∀ t ∈ ticks, 0 ≤ t)
    (hD : ∀ t ∈ ticks, t ≤ k.totalDuration)
    (hmono : ticks.Pairwise (· ≤ ·)) :
    countE (Event.enter c (timingFromRawData c x)) ((run k ticks).2) =
      (if (processedTimes k.tickResolution none ticks).any
          (fun t => decide (x.start ≤ t) && decide (t < x.end_)) then 1 else 0) ∧
    countE (Event.exit c (exitProjection c x)) ((run k ticks).2) =
      (if ((processedTimes k.tickResolution none ticks).any
            (fun t => decide (x.start ≤ t) && decide (t < x.end_)) &&
          (processedTimes k.tickResolution none ticks).any
            (fun t => decide (x.end_ ≤ t))) then 1 else 0) := by
  have hA := run_counts ticks k c x hnd hc hx htree huniq huniqE
    (by rw [hact]; exact List.nodup_nil)
    (by
      rw [hact]
      intro y hy
      simp at hy)
    hres h0 hD
  rw [hlast] at hA
  have hm : decide (x ∈ chanActive k c) = false := by simp [hact]
  rw [hm] at hA
  have hmono2 : (processedTimes k.tickResolution none ticks).Pairwise (· ≤ ·) :=
    List.Pairwise.sublist (processedTimes_sublist _ _ _) hmono
  have hB := enterExitCounts_closed x.start x.end_ _ hmono2
  constructor
  · rw [hA.1, hB]
  · rw [hA.2, hB]

def K1 : Kinetophone :=
  (mkKinetophone [⟨"c", some [⟨5, some 10, none, none⟩]⟩] 100 none).1

/-- Claim C1 counterexample: with the single timing `(5, 10)` on channel
`"c"`, the monotone ticks 0 and 40 advance the clock through both `s = 5`
and `e = 10`, yet no enter and no exit fire — the whole interval lies
strictly inside the batched window resolved at time 40, and the enter
filter requires the resolution time itself to sit inside the interval. -/
theorem batched_window_skips_interval_cex :
    countE (Event.enter "c" (timingFromRawData "c" ⟨0, 5, 10, ⟨5, some 10, none, none⟩⟩))
      ((run K1 [0, 40]).2) = 0 ∧
    countE (Event.exit "c" (exitProjection "c" ⟨0, 5, 10, ⟨5, some 10, none, none⟩⟩))
      ((run K1 [0, 40]).2) = 0 ∧
    (⟨0, 5, 10, ⟨5, some 10, none, none⟩⟩ : NormTiming) ∈ chanTree K1 "c" ∧
    ([0, 40] : List Int).Pairwise (· ≤ ·) ∧
    (0 : Int) ≤ 5 ∧ (10 : Int) ≤ 40 := by
  decide

def K1w : Kinetophone :=
  (mkKinetophone [⟨"c", some [⟨35, some 45, none, none⟩]⟩] 100 none).1

theorem enter_exit_once_per_crossing_witness :
    countE (Event.enter "c" (timingFromRawData "c" ⟨0, 35, 45, ⟨35, some 45, none, none⟩⟩))
      ((run K1w [0, 6, 40, 80]).2) = 1 ∧
    countE (Event.exit "c" (exitProjection "c" ⟨0, 35, 45, ⟨35, some 45, none, none⟩⟩))
      ((run K1w [0, 6, 40, 80]).2) = 1 := by
  have h := enter_exit_once_per_crossing K1w "c" ⟨0, 35, 45, ⟨35, some 45, none, none⟩⟩
    [0, 6, 40, 80] (by decide) (by decide) (by decide) (by decide) (by decide)
    (by decide) (by decide) (by decide) (by decide) (by decide) (by decide) (by decide)
  rw [h.1, h.2]
  constructor <;> decide

/-! ### Claim C6 -/

theorem tickResolvePhase_active_sub (k : Kinetophone) (t : Int)
    (h : ∀ c, ∀ y ∈ chanActive k c, y ∈ chanTree k c) :
    ∀ c, ∀ y ∈ chanActive (tickResolvePhase k t).1 c,
      y ∈ chanTree (tickResolvePhase k t).1 c := by
  unfold tickResolvePhase
  cases hl : k.lastTimerCallback with
  | none =>
      simp only [resolveTimings]
      exact resolveList_active_sub _ _ _ _ h
  | some last =>
      by_cases hres : t - last ≥ k.tickResolution
      · simp only [if_pos hres, resolveTimings]
        intro c y hy
        have h2 := resolveList_active_sub k (k.channels.map Prod.fst) (last + 1) t h c y
          (by simpa [chanActive] using hy)
        simpa [chanTree] using h2
      · simp only [if_neg hres]
        exact h

theorem tickResolvePhase_count_shape_zero (k : Kinetophone) (t : Int) (e : Event)
    (h1 : ∀ ch p, e ≠ Event.enter ch p) (h2 : ∀ ch p, e ≠ Event.enterChan ch p)
    (h3 : ∀ ch p, e ≠ Event.exit ch p) (h4 : ∀ ch p, e ≠ Event.exitChan ch p)
    (h5 : ∀ tt, e ≠ Event.timeupdate tt) :
    countE e (tickResolvePhase k t).2 = 0 := by
  unfold tickResolvePhase
  cases hl : k.lastTimerCallback with
  | none =>
      simp only [resolveTimings]
      simp [countE, countE_resolveList_zero_of_shape e _ _ _ _ h1 h2 h3 h4,
        Ne.symm (h5 t)]
  | some l =>
      by_cases hres : t - l ≥ k.tickResolution
      · simp only [if_pos hres, resolveTimings]
        simp [countE, countE_resolveList_zero_of_shape e _ _ _ _ h1 h2 h3 h4,
          Ne.symm (h5 t)]
      · simp only [if_neg hres]
        rfl

theorem runClock_not_running (k : Kinetophone) (h : k.clockRunning = false) :
    ∀ ts, runClock k ts = (k, []) := by
  intro ts
  induction ts with
  | nil => rfl
  | cons t ts ih => simp [runClock, h, ih]

theorem rolloverPhase_fire (k : Kinetophone) (t : Int)
    (hplay : k.playing = true) (ht : t > k.totalDuration) :
    rolloverPhase k t =
      ((clearList { k with playing := false, clockRunning := false, clockTime := 0, lastTimerCallback := none } (k.channels.map Prod.fst)).1,
       Event.pause :: ((clearList { k with playing := false, clockRunning := false, clockTime := 0, lastTimerCallback := none } (k.channels.map Prod.fst)).2 ++ [Event.ended])) := by
  unfold rolloverPhase
  rw [if_pos ht]
  unfold pause clearAllTimings
  simp [hplay]

theorem getLast?_append_singleton {α : Type} (l : List α) (a : α) :
    (l ++ [a]).getLast? = some a :=
  List.getLast?_concat _

/-- Claim C6: when a tick's elapsed time exceeds the total duration during
playback, the engine pauses, resets the clock to 0, unsets the checkpoint,
clears every channel's active set emitting one `exit` per currently-active
timing (those still active after the tick's own resolution phase), and ends
with a single `end` event as the last event of the callback; and because
playback and the timer are stopped, the Clock contract delivers no further
callbacks, so the sequence cannot repeat on subsequent ticks until play is
called again — once per crossing. -/
theorem rollover_end_sequence (k : Kinetophone) (t : Int)
    (hplay : k.playing = true) (ht : t > k.totalDuration)
    (hnd : (k.channels.map Prod.fst).Nodup)
    (hactnd : ∀ c, (chanActive k c).Nodup)
    (hactsub : ∀ c, ∀ y ∈ chanActive k c, y ∈ chanTree k c) :
    (timerCallback k t).1.playing = false ∧
    (timerCallback k t).1.clockRunning = false ∧
    (timerCallback k t).1.clockTime = 0 ∧
    (timerCallback k t).1.lastTimerCallback = none ∧
    (∀ c ∈ k.channels.map Prod.fst, chanActive (timerCallback k t).1 c = []) ∧
    countE Event.ended (timerCallback k t).2 = 1 ∧
    (timerCallback k t).2.getLast? = some Event.ended ∧
    countE Event.pause (timerCallback k t).2 = 1 ∧
    (∀ c ∈ k.channels.map Prod.fst,
      ∀ x ∈ chanActive (tickResolvePhase { k with clockTime := t } t).1 c,
      (∀ y ∈ chanTree k c, timingFromRawData c y = timingFromRawData c x → y = x) →
      countE (Event.exit c (timingFromRawData c x))
        (rolloverPhase (tickResolvePhase { k with clockTime := t } t).1 t).2 = 1) ∧
    (∀ ts, runClock (timerCallback k t).1 ts = ((timerCallback k t).1, [])) := by
  have hfields := tickResolvePhase_fields { k with clockTime := t } t
  have hch : (tickResolvePhase { k with clockTime := t } t).1.channels = k.channels :=
    hfields.1
  have hdur : (tickResolvePhase { k with clockTime := t } t).1.totalDuration =
      k.totalDuration := hfields.2.1
  have hplay1 : (tickResolvePhase { k with clockTime := t } t).1.playing = true := by
    rw [hfields.2.2.2.2.1]
    exact hplay
  have ht1 : t > (tickResolvePhase { k with clockTime := t } t).1.totalDuration := by
    rw [hdur]
    exact ht
  have hfire := rolloverPhase_fire (tickResolvePhase { k with clockTime := t } t).1 t
    hplay1 ht1
  have htc : timerCallback k t =
      ((rolloverPhase (tickResolvePhase { k with clockTime := t } t).1 t).1,
       (tickResolvePhase { k with clockTime := t } t).2 ++
         (rolloverPhase (tickResolvePhase { k with clockTime := t } t).1 t).2) := by
    simp only [timerCallback]
  have hkeys1 : (tickResolvePhase { k with clockTime := t } t).1.channels.map Prod.fst =
      k.channels.map Prod.fst := by rw [hch]
  have hclear := clearList_state
    { (tickResolvePhase { k with clockTime := t } t).1 with
        playing := false, clockRunning := false, clockTime := 0, lastTimerCallback := none }
    ((tickResolvePhase { k with clockTime := t } t).1.channels.map Prod.fst)
  have hact1nd : ∀ c, (chanActive (tickResolvePhase { k with clockTime := t } t).1 c).Nodup :=
    fun c => tickResolvePhase_active_nodup_pt { k with clockTime := t } t c (hactnd c)
  have hact1sub := tickResolvePhase_active_sub { k with clockTime := t } t hactsub
  refine ⟨?_, ?_, ?_, ?_, ?_, ?_, ?_, ?_, ?_, ?_⟩
  · rw [htc, hfire]
    exact hclear.2.2.1
  · rw [htc, hfire]
    exact hclear.2.2.2.1
  · rw [htc, hfire]
    exact hclear.2.2.2.2.1
  · rw [htc, hfire]
    exact hclear.2.2.2.2.2.1
  · intro c hc
    rw [htc, hfire]
    exact clearList_active_mem _ _ c (by rw [hkeys1]; exact hc)
  · rw [htc]
    simp only [countE_append]
    rw [tickResolvePhase_count_shape_zero _ _ _ (by simp) (by simp) (by simp) (by simp) (by simp)]
    rw [hfire]
    simp only [countE, countE_append]
    rw [countE_clearList_zero_of_shape _ _ _ (by simp) (by simp)]
    simp [countE]
  · rw [htc, hfire]
    rw [show (tickResolvePhase { k with clockTime := t } t).2 ++
        (Event.pause :: ((clearList { (tickResolvePhase { k with clockTime := t } t).1 with playing := false, clockRunning := false, clockTime := 0, lastTimerCallback := none } ((tickResolvePhase { k with clockTime := t } t).1.channels.map Prod.fst)).2 ++ [Event.ended])) =
        ((tickResolvePhase { k with clockTime := t } t).2 ++
          (Event.pause :: (clearList { (tickResolvePhase { k with clockTime := t } t).1 with playing := false, clockRunning := false, clockTime := 0, lastTimerCallback := none } ((tickResolvePhase { k with clockTime := t } t).1.channels.map Prod.fst)).2)) ++ [Event.ended] from by simp]
    exact getLast?_append_singleton _ _
  · rw [htc]
    simp only [countE_append]
    rw [tickResolvePhase_count_shape_zero _ _ _ (by simp) (by simp) (by simp) (by simp) (by simp)]
    rw [hfire]
    simp only [countE, countE_append]
    rw [countE_clearList_zero_of_shape _ _ _ (by simp) (by simp)]
    simp [countE]
  · intro c hc x hx huniq
    rw [hfire]
    simp only [countE, countE_append]
    rw [clearList_countE_exit _ _ c _ (by rw [hkeys1]; exact hnd) (by rw [hkeys1]; exact hc)]
    have hacteq : chanActive { (tickResolvePhase { k with clockTime := t } t).1 with
        playing := false, clockRunning := false, clockTime := 0, lastTimerCallback := none } c =
        chanActive (tickResolvePhase { k with clockTime := t } t).1 c := rfl
    rw [hacteq]
    have htreeEq : chanTree (tickResolvePhase { k with clockTime := t } t).1 c = chanTree k c :=
      chanTree_congr _ _ _ hch
    have huniqact : ∀ y ∈ chanActive (tickResolvePhase { k with clockTime := t } t).1 c,
        timingFromRawData c y = timingFromRawData c x → y = x := by
      intro y hy
      have : y ∈ chanTree k c := by
        rw [← htreeEq]
        exact hact1sub c y hy
      exact huniq y this
    rw [countE_clearEventsFor_self c x _ (hact1nd c) huniqact]
    simp [hx, countE]
  · intro ts
    have hrunning : (timerCallback k t).1.clockRunning = false := by
      rw [htc, hfire]
      exact hclear.2.2.2.1
    exact runClock_not_running _ hrunning ts

/-- The engine `K9` set playing and ticked once at 0, so that its timing
`(0, 5)` is active when the rollover tick arrives. -/
def K6 : Kinetophone := (run (play K9).1 [0]).1

theorem rollover_end_sequence_witness :
    (timerCallback K6 150).1.playing = false ∧
    (timerCallback K6 150).1.clockTime = 0 ∧
    (timerCallback K6 150).1.lastTimerCallback = none ∧
    countE Event.ended (timerCallback K6 150).2 = 1 ∧
    (timerCallback K6 150).2.getLast? = some Event.ended ∧
    (∀ ts, runClock (timerCallback K6 150).1 ts = ((timerCallback K6 150).1, [])) := by
  have hacts : K6.activeTimings = [("c", [⟨0, 0, 5, ⟨0, some 5, none, none⟩⟩])] := by
    decide
  have hactnd : ∀ c, (chanActive K6 c).Nodup := by
    intro c
    unfold chanActive
    rw [hacts]
    by_cases hc : ("c" : String) = c <;> simp [lookupA, hc]
  have hactsub : ∀ c, ∀ y ∈ chanActive K6 c, y ∈ chanTree K6 c := by
    intro c
    by_cases hc : ("c" : String) = c
    · subst hc
      intro y hy
      unfold chanActive at hy
      rw [hacts] at hy
      simp [lookupA] at hy
      subst hy
      decide
    · intro y hy
      unfold chanActive at hy
      rw [hacts] at hy
      simp [lookupA, hc] at hy
  have h := rollover_end_sequence K6 150 (by decide) (by decide) (by decide) hactnd hactsub
  exact ⟨h.1, h.2.2.1, h.2.2.2.1, h.2.2.2.2.2.1, h.2.2.2.2.2.2.1, h.2.2.2.2.2.2.2.2.2⟩
